import Mathlib

/-!
Verification of the fastmail-cli search-query compiler
(`internal/jmap/filter.go`): the byte-level lexer, the fueled
recursive-descent parser, the term interpreter, and the JMAP wire
compiler, together with theorems about the behaviour documented in the
specification.

Go strings are modelled as lists of bytes (`List Nat`), matching Go's
byte-indexed `string` type; `ab` converts an ASCII string literal to
its byte list (for ASCII text, code points and UTF-8 bytes coincide).
-/

/-- Byte list of an ASCII string literal. -/
def ab (s : String) : List Nat := s.data.map (fun c => c.toNat)

/-- Go `unicode.IsSpace (rune b)` for one byte `b < 256` (the lexer
applies it byte-wise): Unicode white space in the Latin-1 range. -/
def isSpaceByte (b : Nat) : Bool :=
  b == 9 || b == 10 || b == 11 || b == 12 || b == 13 || b == 32 || b == 133 || b == 160

/-- ASCII upper-casing, byte-wise. Go's `strings.ToUpper` decodes runes,
but on the comparisons the lexer performs (equality with the ASCII
keywords `AND`, `OR`, `NOT`) the two agree, since no non-ASCII rune
upper-cases to any of `A`, `N`, `D`, `O`, `R`, `T`. -/
def upperAscii (l : List Nat) : List Nat :=
  l.map (fun b => if 97 ≤ b && b ≤ 122 then b - 32 else b)

/-- Go `strings.ToLower` on byte strings. `ToLower` applies the Unicode
simple lower-case mapping rune by rune (with an equivalent byte-wise
fast path for all-ASCII input) and re-encodes; an invalid UTF-8 byte
becomes U+FFFD. The parser only ever compares the result against
all-ASCII literals, and exactly three kinds of rune lower-case to an
ASCII byte: `A`-`Z`, U+0130 (UTF-8 bytes 196 176, lower case `i`) and
U+212A (UTF-8 bytes 226 132 170, lower case `k`). The lead bytes 196
and 226 are never continuation bytes, so those byte patterns decode to
exactly those runes wherever they occur. Every other rune, and the
U+FFFD that Go substitutes for an invalid byte, stays non-ASCII after
lower-casing, so mapping the remaining bytes to themselves preserves
every comparison the parser performs. -/
def lowerGo : List Nat → List Nat
| 196 :: 176 :: rest => 105 :: lowerGo rest
| 226 :: 132 :: 170 :: rest => 107 :: lowerGo rest
| b :: rest => (if 65 ≤ b && b ≤ 90 then b + 32 else b) :: lowerGo rest
| [] => []

/-- Lexer tokens (`tokenType`/`token` in the source); the EOF token is
represented by the end of the token list. -/
inductive Tok where
| word (w : List Nat)
| andT
| orT
| notT
| lpar
| rpar
deriving DecidableEq

/-- Loop of Go `readQuoted`: collect bytes until the closing quote `q`,
jumping over the byte after each backslash; the closing quote is
dropped, and with no closing quote the span runs to the end of the
input. Returns the raw span and the rest of the input. -/
def scanQ (q : Nat) : List Nat → List Nat × List Nat
| [] => ([], [])
| b :: bs =>
  if b == q then ([], bs)
  else if b == 92 then
    match bs with
    | [] => ([92], [])
    | c :: cs =>
      let r := scanQ q cs
      (92 :: c :: r.1, r.2)
  else
    let r := scanQ q bs
    (b :: r.1, r.2)

/-- One `strings.ReplaceAll value [92, q] [q]` pass: replace each
non-overlapping left-to-right occurrence of backslash-`q` by `q`. -/
def replacePair (q : Nat) : List Nat → List Nat
| a :: b :: rest =>
  if a == 92 && b == q then q :: replacePair q rest
  else a :: replacePair q (b :: rest)
| l => l

/-- The two `ReplaceAll` calls at the end of Go `readQuoted`: first
collapse backslash-doublequote, then backslash-singlequote. -/
def unescapeQ (l : List Nat) : List Nat := replacePair 39 (replacePair 34 l)

/-- Go `readQuoted`: the input starts at the opening quote. -/
def readQuoted (l : List Nat) : List Nat × List Nat :=
  match l with
  | [] => ([], [])
  | q :: rest =>
    let r := scanQ q rest
    (unescapeQ r.1, r.2)

/-- Head test of `readWord`'s colon rule: the next byte is a double or
single quote. -/
def quoteHead : List Nat → Bool
| b :: _ => b == 34 || b == 39
| [] => false

/-- Go `readWord`: read bytes up to whitespace or a parenthesis; a colon
directly followed by a quote splices a quoted span into the word and
ends it. -/
def readWord : List Nat → List Nat × List Nat
| [] => ([], [])
| b :: rest =>
  if isSpaceByte b || b == 40 || b == 41 then ([], b :: rest)
  else if b == 58 && quoteHead rest then
    let r := readQuoted rest
    (58 :: r.1, r.2)
  else
    let r := readWord rest
    (b :: r.1, r.2)

/-- Go `skipWhitespace` (byte-wise, like the source). -/
def skipWhitespace : List Nat → List Nat
| [] => []
| b :: l => if isSpaceByte b then skipWhitespace l else b :: l

/-- Keyword classification at the end of Go `nextToken`:
case-insensitive match against `AND`, `OR`, `NOT`. -/
def classifyWord (w : List Nat) : Tok :=
  let u := upperAscii w
  if u == ab ("AND") then Tok.andT
  else if u == ab ("OR") then Tok.orT
  else if u == ab ("NOT") then Tok.notT
  else Tok.word w

/-- Go `nextToken`; `none` plays the role of the EOF token. -/
def nextToken (l : List Nat) : Option Tok × List Nat :=
  match skipWhitespace l with
  | [] => (none, [])
  | b :: rest =>
    if b == 40 then (some Tok.lpar, rest)
    else if b == 41 then (some Tok.rpar, rest)
    else if b == 34 || b == 39 then
      let r := readQuoted (b :: rest)
      (some (Tok.word r.1), r.2)
    else
      let r := readWord (b :: rest)
      (some (classifyWord r.1), r.2)

/-- Full token stream of the input, with fuel; each produced token
consumes at least one byte, so fuel `l.length + 1` tokenizes all of
`l`. -/
def tokenize : Nat → List Nat → List Tok
| 0, _ => []
| f+1, l =>
  match nextToken l with
  | (none, _) => []
  | (some t, rest) => t :: tokenize f rest

/-- JMAP filters: the `Filter` interface with its three implementations
`TextFilter`, `BoolFilter` and `HasAttachmentFilter`. -/
inductive JFilter where
| text (field value : List Nat)
| boolF (op : List Nat) (conds : List JFilter)
| hasAttachment (v : Bool)

/-- Go `strings.Index l [b]`: index of the first occurrence of byte `b`,
`-1` when absent. -/
def strIndex (l : List Nat) (b : Nat) : Int :=
  match l with
  | [] => -1
  | c :: rest =>
    if c == b then 0
    else
      let i := strIndex rest b
      if i == -1 then -1 else i + 1

/-- The `switch field` statement inside Go `parseFieldValue`, factored
into its own function: `field` arrives already lower-cased, `value` is
the raw remainder, and `term` is the whole word for the fall-through
cases. -/
def fieldSwitch (term field value : List Nat) : JFilter :=
  if field == ab ("from") then JFilter.text (ab ("from")) value
  else if field == ab ("to") then JFilter.text (ab ("to")) value
  else if field == ab ("cc") then JFilter.text (ab ("cc")) value
  else if field == ab ("bcc") then JFilter.text (ab ("bcc")) value
  else if field == ab ("subject") then JFilter.text (ab ("subject")) value
  else if field == ab ("body") then JFilter.text (ab ("body")) value
  else if field == ab ("has") then
    (if lowerGo value == ab ("attachment") then JFilter.hasAttachment true
     else JFilter.text (ab ("text")) term)
  else if field == ab ("is") then
    (if lowerGo value == ab ("unread") then JFilter.text (ab ("notKeyword")) (ab ("$seen"))
     else if lowerGo value == ab ("read") then JFilter.text (ab ("hasKeyword")) (ab ("$seen"))
     else if lowerGo value == ab ("flagged") || lowerGo value == ab ("starred") then
       JFilter.text (ab ("hasKeyword")) (ab ("$flagged"))
     else if lowerGo value == ab ("unflagged") || lowerGo value == ab ("unstarred") then
       JFilter.text (ab ("notKeyword")) (ab ("$flagged"))
     else if lowerGo value == ab ("draft") then JFilter.text (ab ("hasKeyword")) (ab ("$draft"))
     else if lowerGo value == ab ("answered") then
       JFilter.text (ab ("hasKeyword")) (ab ("$answered"))
     else JFilter.text (ab ("text")) term)
  else if field == ab ("in") || field == ab ("folder") || field == ab ("mailbox") then
    JFilter.text (ab ("inMailbox")) value
  else if field == ab ("before") then JFilter.text (ab ("before")) value
  else if field == ab ("after") then JFilter.text (ab ("after")) value
  else JFilter.text (ab ("text")) term

/-- Go `parseFieldValue`: interpret one word as `field:value` or as free
text (the `has` and `is` cases of the switch fall through to the
free-text default when the value is not recognized). -/
def parseFieldValue (term : List Nat) : JFilter :=
  if 0 < strIndex term 58 then
    fieldSwitch term (lowerGo (term.take (strIndex term 58).toNat))
      (term.drop ((strIndex term 58).toNat + 1))
  else JFilter.text (ab ("text")) term

/-- Go `parseTerm`: a single Word token is interpreted by
`parseFieldValue`; any other token yields no filter and consumes
nothing. -/
def parseTerm : List Tok → Option JFilter × List Tok
| Tok.word w :: rest => (some (parseFieldValue w), rest)
| ts => (none, ts)

/-- Start-of-`NotExpr` test of the implicit-AND rule in
`parseAndExpr`: a word, `NOT`, or an opening parenthesis. -/
def isStartTok : Tok → Bool
| Tok.word _ => true
| Tok.notT => true
| Tok.lpar => true
| _ => false

mutual

/-- Go `parseOrExpr`, with fuel. The fuel only bounds the call depth
(at most five frames per token, since every cycle in the source's
recursion consumes a token); it is threaded to every callee. -/
def parseOrExpr : Nat → List Tok → Option JFilter × List Tok
| 0, ts => (none, ts)
| f+1, ts =>
  match parseAndExpr f ts with
  | (none, ts1) => (none, ts1)
  | (some l0, ts1) =>
    match parseOrLoop f [l0] ts1 with
    | ([c], ts2) => (some c, ts2)
    | (cs, ts2) => (some (JFilter.boolF (ab ("OR")) cs), ts2)

/-- The `for p.current.typ == tokenOR` loop of `parseOrExpr`; a nil
disjunct is skipped. -/
def parseOrLoop : Nat → List JFilter → List Tok → List JFilter × List Tok
| 0, acc, ts => (acc, ts)
| f+1, acc, Tok.orT :: rest =>
  match parseAndExpr f rest with
  | (r1, ts1) => parseOrLoop f (acc ++ r1.toList) ts1
| _+1, acc, ts => (acc, ts)

/-- Go `parseAndExpr`, with fuel. -/
def parseAndExpr : Nat → List Tok → Option JFilter × List Tok
| 0, ts => (none, ts)
| f+1, ts =>
  match parseNotExpr f ts with
  | (none, ts1) => (none, ts1)
  | (some l0, ts1) =>
    match parseAndLoop f [l0] ts1 with
    | ([c], ts2) => (some c, ts2)
    | (cs, ts2) => (some (JFilter.boolF (ab ("AND")) cs), ts2)

/-- The accumulation loop of `parseAndExpr`: an explicit `AND` keyword,
or implicitly any token that can start a `NotExpr`, continues the
conjunction; a nil conjunct is skipped. -/
def parseAndLoop : Nat → List JFilter → List Tok → List JFilter × List Tok
| 0, acc, ts => (acc, ts)
| f+1, acc, Tok.andT :: rest =>
  match parseNotExpr f rest with
  | (r1, ts1) => parseAndLoop f (acc ++ r1.toList) ts1
| f+1, acc, t :: rest =>
  if isStartTok t then
    match parseNotExpr f (t :: rest) with
    | (r1, ts1) => parseAndLoop f (acc ++ r1.toList) ts1
  else (acc, t :: rest)
| _+1, acc, [] => (acc, [])

/-- Go `parseNotExpr`, with fuel: `NOT` wraps its operand, and a nil
operand propagates. -/
def parseNotExpr : Nat → List Tok → Option JFilter × List Tok
| 0, ts => (none, ts)
| f+1, Tok.notT :: rest =>
  match parseNotExpr f rest with
  | (none, ts1) => (none, ts1)
  | (some o, ts1) => (some (JFilter.boolF (ab ("NOT")) [o]), ts1)
| f+1, ts => parsePrimary f ts

/-- Go `parsePrimary`, with fuel: a parenthesized group (whose closing
parenthesis is consumed only if present), else a term. -/
def parsePrimary : Nat → List Tok → Option JFilter × List Tok
| 0, ts => (none, ts)
| f+1, Tok.lpar :: rest =>
  match parseOrExpr f rest with
  | (e, Tok.rpar :: ts2) => (e, ts2)
  | (e, ts1) => (e, ts1)
| _+1, ts => parseTerm ts

end

/-- Continuation-byte test, `0x80 ≤ b ≤ 0xBF`. -/
def isCont (b : Nat) : Bool := 128 ≤ b && b ≤ 191

/-- Go `utf8.DecodeRune` on a byte list: first rune and its byte size;
invalid or truncated encodings give `(0xFFFD, 1)`, empty input
`(0xFFFD, 0)`. -/
def decodeRune (l : List Nat) : Nat × Nat :=
  match l with
  | [] => (65533, 0)
  | b0 :: rest =>
    if b0 < 128 then (b0, 1)
    else if b0 < 194 then (65533, 1)
    else if b0 < 224 then
      match rest with
      | b1 :: _ => if isCont b1 then ((b0 - 192) * 64 + (b1 - 128), 2) else (65533, 1)
      | [] => (65533, 1)
    else if b0 < 240 then
      match rest with
      | b1 :: b2 :: _ =>
        let lo := if b0 == 224 then 160 else 128
        let hi := if b0 == 237 then 159 else 191
        if (lo ≤ b1 && b1 ≤ hi) && isCont b2 then
          ((b0 - 224) * 4096 + (b1 - 128) * 64 + (b2 - 128), 3)
        else (65533, 1)
      | _ => (65533, 1)
    else if b0 < 245 then
      match rest with
      | b1 :: b2 :: b3 :: _ =>
        let lo := if b0 == 240 then 144 else 128
        let hi := if b0 == 244 then 143 else 191
        if ((lo ≤ b1 && b1 ≤ hi) && isCont b2) && isCont b3 then
          ((b0 - 240) * 262144 + (b1 - 128) * 4096 + (b2 - 128) * 64 + (b3 - 128), 4)
        else (65533, 1)
      | _ => (65533, 1)
    else (65533, 1)

/-- Unicode White_Space code points (Go `unicode.IsSpace` on a properly
decoded rune). -/
def isWhiteSpaceRune (r : Nat) : Bool :=
  r == 9 || r == 10 || r == 11 || r == 12 || r == 13 || r == 32 ||
  r == 133 || r == 160 || r == 5760 || (8192 ≤ r && r ≤ 8202) ||
  r == 8232 || r == 8233 || r == 8239 || r == 8287 || r == 12288

/-- Left half of Go `strings.TrimSpace`: drop leading white-space runes
(fueled; every dropped rune consumes at least one byte). -/
def trimLeftWS : Nat → List Nat → List Nat
| 0, l => l
| f+1, l =>
  match l with
  | [] => []
  | _ =>
    let r := decodeRune l
    if isWhiteSpaceRune r.1 then trimLeftWS f (l.drop r.2) else l

/-- Start-of-rune byte test (`utf8.RuneStart`). -/
def isRuneStart (b : Nat) : Bool := !(isCont b)

/-- Size check inside `utf8.DecodeLastRune`: the decoded rune must span
exactly the bytes back to the found start byte. -/
def sizedRune (p : Nat × Nat) (j : Nat) : Nat × Nat :=
  if p.2 == j then (p.1, j) else (65533, 1)

/-- Go `utf8.DecodeLastRune`, taking the reversed byte list: the last
rune of the original string and its byte size. -/
def decodeLastRune (rl : List Nat) : Nat × Nat :=
  match rl with
  | [] => (65533, 0)
  | b0 :: rest =>
    if b0 < 128 then (b0, 1)
    else
      match rest with
      | b1 :: r1 =>
        if isRuneStart b1 then sizedRune (decodeRune [b1, b0]) 2
        else
          match r1 with
          | b2 :: r2 =>
            if isRuneStart b2 then sizedRune (decodeRune [b2, b1, b0]) 3
            else
              match r2 with
              | b3 :: _ =>
                if isRuneStart b3 then sizedRune (decodeRune [b3, b2, b1, b0]) 4
                else (65533, 1)
              | [] => (65533, 1)
          | [] => (65533, 1)
      | [] => (65533, 1)

/-- Right half of Go `strings.TrimSpace`, operating on the reversed
byte list. -/
def trimRightWS : Nat → List Nat → List Nat
| 0, rl => rl
| f+1, rl =>
  match rl with
  | [] => []
  | _ =>
    let r := decodeLastRune rl
    if isWhiteSpaceRune r.1 then trimRightWS f (rl.drop r.2) else rl

/-- Go `strings.TrimSpace`: rune-based trimming of Unicode white space
from both ends (the ASCII fast path of the library function agrees
with rune-wise trimming). -/
def trimSpace (l : List Nat) : List Nat :=
  let l1 := trimLeftWS (l.length + 1) l
  (trimRightWS (l1.length + 1) l1.reverse).reverse

/-- Body of Go `parser.parse` on a token stream: nil at the EOF token,
otherwise `parseOrExpr`. Five fuel frames per token always suffice. -/
def parseToks (ts : List Tok) : Option JFilter :=
  match ts with
  | [] => none
  | _ => (parseOrExpr (5 * ts.length + 5) ts).1

/-- Go `ParseQuery`: trim the query; an empty remainder is "no filter",
otherwise tokenize and parse. -/
def ParseQuery (input : List Nat) : Option JFilter :=
  let q := trimSpace input
  if q.isEmpty then none
  else parseToks (tokenize (q.length + 1) q)

/-- JSON-shaped values produced by `ToJMAP` (`map[string]interface` in
the source, with string, bool, object and array payloads; objects are
modelled as field lists in construction order). -/
inductive JVal where
| str (v : List Nat)
| bool (v : Bool)
| obj (fields : List (List Nat × JVal))
| arr (elems : List JVal)

mutual

/-- The three `ToJMAP` methods: `TextFilter` yields `{field: value}`,
`HasAttachmentFilter` yields `{hasAttachment: v}`, and `BoolFilter`
yields `{operator: op, conditions: [...]}`. -/
def ToJMAP : JFilter → JVal
| JFilter.text f v => JVal.obj [(f, JVal.str v)]
| JFilter.hasAttachment v => JVal.obj [(ab ("hasAttachment"), JVal.bool v)]
| JFilter.boolF op conds =>
  JVal.obj [(ab ("operator"), JVal.str op), (ab ("conditions"), JVal.arr (ToJMAPList conds))]

/-- The `conditions` loop of `BoolFilter.ToJMAP`. -/
def ToJMAPList : List JFilter → List JVal
| [] => []
| c :: cs => ToJMAP c :: ToJMAPList cs

end

/-- Scan for the first colon of a word: the bytes before it and after
it, or `none` when the word has no colon. -/
def splitColonAux : List Nat → Option (List Nat × List Nat)
| [] => none
| b :: rest =>
  if b == 58 then some ([], rest)
  else (splitColonAux rest).map (fun p => (b :: p.1, p.2))

/-- Modelled on the spec's words for the term interpreter (§4.2):
locate the first colon in the word, provided its index is greater than
zero (a leading colon does not split). -/
def splitFirstColon (l : List Nat) : Option (List Nat × List Nat) :=
  match l with
  | [] => none
  | b :: rest => if b == 58 then none else splitColonAux (b :: rest)

/-- Keyword rows of the spec's §4.2 table: recognized `is:` values,
compared after lower-casing, and the keyword predicate each denotes. -/
def isKeywordTable (v : List Nat) : Option JFilter :=
  if v == ab ("unread") then some (JFilter.text (ab ("notKeyword")) (ab ("$seen")))
  else if v == ab ("read") then some (JFilter.text (ab ("hasKeyword")) (ab ("$seen")))
  else if v == ab ("flagged") || v == ab ("starred") then
    some (JFilter.text (ab ("hasKeyword")) (ab ("$flagged")))
  else if v == ab ("unflagged") || v == ab ("unstarred") then
    some (JFilter.text (ab ("notKeyword")) (ab ("$flagged")))
  else if v == ab ("draft") then some (JFilter.text (ab ("hasKeyword")) (ab ("$draft")))
  else if v == ab ("answered") then some (JFilter.text (ab ("hasKeyword")) (ab ("$answered")))
  else none

/-- The spec's §4.2 dispatch table: `field` arrives lower-cased,
`value` is the unmodified remainder, and `word` is the whole original
word, used by the free-text fallback rows. -/
def dispatchField (word field value : List Nat) : JFilter :=
  if field == ab ("from") || field == ab ("to") || field == ab ("cc") ||
      field == ab ("bcc") || field == ab ("subject") || field == ab ("body") then
    JFilter.text field value
  else if field == ab ("has") && lowerGo value == ab ("attachment") then
    JFilter.hasAttachment true
  else if field == ab ("is") then
    match isKeywordTable (lowerGo value) with
    | some p => p
    | none => JFilter.text (ab ("text")) word
  else if field == ab ("in") || field == ab ("folder") || field == ab ("mailbox") then
    JFilter.text (ab ("inMailbox")) value
  else if field == ab ("before") || field == ab ("after") then JFilter.text field value
  else JFilter.text (ab ("text")) word

/-- Term interpreter as the spec words it (§4.2): split at the first
colon when its index is positive, lower-case the field, dispatch on the
table; everything else is free text over the whole word. -/
def fieldValueSpec (word : List Nat) : JFilter :=
  match splitFirstColon word with
  | none => JFilter.text (ab ("text")) word
  | some p => dispatchField word (lowerGo p.1) p.2

/-- Shape invariant of filter trees (§3): a `NOT` node has exactly one
child, `AND` and `OR` nodes have at least two, recursively. -/
inductive WfFilter : JFilter → Prop
| text (f v : List Nat) : WfFilter (JFilter.text f v)
| hasAtt (b : Bool) : WfFilter (JFilter.hasAttachment b)
| notNode (c : JFilter) : WfFilter c → WfFilter (JFilter.boolF (ab ("NOT")) [c])
| andNode (cs : List JFilter) : 2 ≤ cs.length → (∀ c ∈ cs, WfFilter c) →
    WfFilter (JFilter.boolF (ab ("AND")) cs)
| orNode (cs : List JFilter) : 2 ≤ cs.length → (∀ c ∈ cs, WfFilter c) →
    WfFilter (JFilter.boolF (ab ("OR")) cs)

/-- Paren-depth scan deciding whether every parenthesis byte of a query
is matched (quoting ignored): this is the literal reading of "balanced
internal parens". -/
def parenDepthOk : Nat → List Nat → Bool
| d, [] => d == 0
| d, 40 :: rest => parenDepthOk (d+1) rest
| d, 41 :: rest => if d == 0 then false else parenDepthOk (d-1) rest
| d, _ :: rest => parenDepthOk d rest

/-- Balanced-parenthesis test for a byte string. -/
def parenBalanced (l : List Nat) : Bool := parenDepthOk 0 l

/-- A byte that the lexer reads as an ordinary word byte: not
byte-wise white space, not a parenthesis, not a quote. -/
def plainByte (b : Nat) : Bool :=
  !(isSpaceByte b) && !(b == 40) && !(b == 41) && !(b == 34) && !(b == 39)

theorem splitColonAux_none {l : List Nat} (h : splitColonAux l = none) :
    strIndex l 58 = -1 := by
  induction l with
  | nil => rfl
  | cons b rest ih =>
    rw [splitColonAux] at h
    by_cases hb : (b == 58) = true
    · rw [if_pos hb] at h; exact absurd h (by simp)
    · rw [if_neg hb] at h
      rw [strIndex]
      cases hsp : splitColonAux rest with
      | some q => rw [hsp] at h; simp at h
      | none =>
        have hi := ih hsp
        simp [hb, hi]

theorem splitColonAux_some {l : List Nat} {p : List Nat × List Nat}
    (h : splitColonAux l = some p) :
    l = p.1 ++ 58 :: p.2 ∧ ¬ 58 ∈ p.1 := by
  induction l generalizing p with
  | nil => simp [splitColonAux] at h
  | cons b rest ih =>
    rw [splitColonAux] at h
    by_cases hb : (b == 58) = true
    · rw [if_pos hb] at h
      have hb' : b = 58 := by simpa using hb
      injection h with h
      subst h
      simp [hb']
    · rw [if_neg hb] at h
      cases hsp : splitColonAux rest with
      | none => rw [hsp] at h; simp at h
      | some q =>
        rw [hsp] at h
        simp only [Option.map_some'] at h
        obtain ⟨h1, h2⟩ := ih hsp
        have hb' : ¬ b = 58 := by simpa using hb
        injection h with h
        subst h
        simp only [List.cons_append, List.mem_cons, not_or]
        exact ⟨by rw [h1], fun hh => hb' hh.symm, h2⟩

theorem strIndex_prefix_colon (f v : List Nat) (hf : ¬ 58 ∈ f) :
    strIndex (f ++ 58 :: v) 58 = (f.length : Int) := by
  induction f with
  | nil => simp [strIndex]
  | cons b rest ih =>
    have hb : ¬ b = 58 := fun h => hf (by simp [h])
    have hrest : ¬ 58 ∈ rest := fun h => hf (by simp [h])
    rw [List.cons_append, strIndex]
    have h1 := ih hrest
    have hbne : (b == 58) = false := by simpa using hb
    have hne : (((rest.length : Int)) == -1) = false := by
      simp only [beq_eq_false_iff_ne, ne_eq]
      omega
    simp only [hbne, Bool.false_eq_true, if_false, h1, hne, List.length_cons]
    push_cast
    ring

theorem switch_eq_dispatch (t fd v : List Nat) : fieldSwitch t fd v = dispatchField t fd v := by
  rw [fieldSwitch]
  by_cases h1 : fd = ab ("from")
  · subst h1; rfl
  by_cases h2 : fd = ab ("to")
  · subst h2; rfl
  by_cases h3 : fd = ab ("cc")
  · subst h3; rfl
  by_cases h4 : fd = ab ("bcc")
  · subst h4; rfl
  by_cases h5 : fd = ab ("subject")
  · subst h5; rfl
  by_cases h6 : fd = ab ("body")
  · subst h6; rfl
  by_cases h7 : fd = ab ("has")
  · subst h7
    unfold dispatchField
    by_cases ka : (lowerGo v == ab ("attachment")) = true
    · simp +decide [ka]
    · simp +decide [ka]
  by_cases h8 : fd = ab ("is")
  · subst h8
    unfold dispatchField isKeywordTable
    by_cases k1 : (lowerGo v == ab ("unread")) = true
    · simp +decide [k1]
    by_cases k2 : (lowerGo v == ab ("read")) = true
    · simp +decide [k1, k2]
    by_cases k3 :
        (lowerGo v == ab ("flagged") || lowerGo v == ab ("starred")) = true
    · simp +decide [k1, k2, k3]
    by_cases k4 :
        (lowerGo v == ab ("unflagged") || lowerGo v == ab ("unstarred")) = true
    · simp +decide [k1, k2, k3, k4]
    by_cases k5 : (lowerGo v == ab ("draft")) = true
    · simp +decide [k1, k2, k3, k4, k5]
    by_cases k6 : (lowerGo v == ab ("answered")) = true
    · simp +decide [k1, k2, k3, k4, k5, k6]
    · simp +decide [k1, k2, k3, k4, k5, k6]
  by_cases h9 : fd = ab ("in")
  · subst h9; rfl
  by_cases h10 : fd = ab ("folder")
  · subst h10; rfl
  by_cases h11 : fd = ab ("mailbox")
  · subst h11; rfl
  by_cases h12 : fd = ab ("before")
  · subst h12; rfl
  by_cases h13 : fd = ab ("after")
  · subst h13; rfl
  simp +decide [beq_iff_eq, h1, h2, h3, h4, h5, h6, h7, h8, h9, h10, h11, h12, h13,
    dispatchField, isKeywordTable]

/-- The divergent case of byte-wise ASCII lower-casing: Go lower-cases
U+0130 (bytes 196 176) to `i`, so the program recognizes the field of
a word such as U+0130`s:unread`; the embedding does too. -/
theorem parseFieldValue_dotted_capital_I :
    lowerGo (196 :: 176 :: ab ("s")) = ab ("is") ∧
    parseFieldValue (196 :: 176 :: ab ("s:unread")) =
      JFilter.text (ab ("notKeyword")) (ab ("$seen")) := ⟨rfl, rfl⟩

/-- C3: the term interpreter splits at the first colon only when that
colon's index is positive, lower-cases the field, and dispatches per
the spec's table, with unrecognized shapes falling back to a free-text
predicate over the whole word: `parseFieldValue` agrees with the
table as the spec words it. -/
theorem parseFieldValue_matches_table : ∀ term, parseFieldValue term = fieldValueSpec term := by
  intro w
  rw [fieldValueSpec]
  cases w with
  | nil => rfl
  | cons b rest =>
    rw [splitFirstColon]
    by_cases hb : (b == 58) = true
    · rw [if_pos hb]
      have hb' : b = 58 := by simpa using hb
      subst hb'
      rw [parseFieldValue]
      simp [strIndex]
    · rw [if_neg hb]
      cases hsp : splitColonAux (b :: rest) with
      | none =>
        have hidx := splitColonAux_none hsp
        rw [parseFieldValue, hidx]
        norm_num
      | some p =>
        obtain ⟨hl, hnotin⟩ := splitColonAux_some hsp
        have hp1 : p.1 ≠ [] := by
          intro hnil
          rw [hnil] at hl
          simp only [List.nil_append] at hl
          have : b = 58 := by injection hl
          simp [this] at hb
        have hidx : strIndex (b :: rest) 58 = (p.1.length : Int) := by
          rw [hl]; exact strIndex_prefix_colon p.1 p.2 hnotin
        have hpos : (0 : Int) < (p.1.length : Int) := by
          have : p.1.length ≠ 0 := by simpa using hp1
          omega
        have htn : ((p.1.length : Int)).toNat = p.1.length := Int.toNat_natCast _
        have htake : (b :: rest).take p.1.length = p.1 := by
          rw [hl]; exact List.take_left p.1 _
        have hdrop : (b :: rest).drop (p.1.length + 1) = p.2 := by
          rw [hl]
          have he : p.1 ++ 58 :: p.2 = (p.1 ++ [58]) ++ p.2 := by simp
          have hlen : (p.1 ++ [58]).length = p.1.length + 1 := by simp
          rw [he, ← hlen, List.drop_left]
        rw [parseFieldValue]
        simp only [hidx, if_pos hpos, htn, htake, hdrop]
        exact switch_eq_dispatch _ _ _

/-- C10: a word `is:V` or `has:V` whose lower-cased value is not
recognized falls back to a free-text predicate over the entire original
word — never a predicate over the value alone and never an error; in
particular `is:spam` gives the free-text filter for `is:spam`. -/
theorem is_has_fallback : ∀ v : List Nat,
    ((lowerGo v ≠ ab ("unread") ∧ lowerGo v ≠ ab ("read") ∧
      lowerGo v ≠ ab ("flagged") ∧ lowerGo v ≠ ab ("starred") ∧
      lowerGo v ≠ ab ("unflagged") ∧ lowerGo v ≠ ab ("unstarred") ∧
      lowerGo v ≠ ab ("draft") ∧ lowerGo v ≠ ab ("answered")) →
      parseFieldValue (ab ("is:") ++ v) = JFilter.text (ab ("text")) (ab ("is:") ++ v)) ∧
    (lowerGo v ≠ ab ("attachment") →
      parseFieldValue (ab ("has:") ++ v) = JFilter.text (ab ("text")) (ab ("has:") ++ v)) ∧
    parseFieldValue (ab ("is:spam")) = JFilter.text (ab ("text")) (ab ("is:spam")) := by
  intro v
  refine ⟨?_, ?_, rfl⟩
  · rintro ⟨n1, n2, n3, n4, n5, n6, n7, n8⟩
    have hidx : strIndex (ab ("is:") ++ v) 58 = 2 := rfl
    rw [parseFieldValue, hidx]
    simp +decide [fieldSwitch, beq_iff_eq, List.take, List.drop, n1, n2, n3, n4, n5, n6, n7, n8]
  · intro na
    have hidx : strIndex (ab ("has:") ++ v) 58 = 3 := rfl
    rw [parseFieldValue, hidx]
    simp +decide [fieldSwitch, beq_iff_eq, List.take, List.drop, na]

/-- Witness for `is_has_fallback` at the concrete value `spam`. -/
theorem is_has_fallback_inst :
    parseFieldValue (ab ("is:spam")) = JFilter.text (ab ("text")) (ab ("is:spam")) :=
  (is_has_fallback (ab ("spam"))).1 (by refine ⟨?_, ?_, ?_, ?_, ?_, ?_, ?_, ?_⟩ <;> decide)

theorem parseOrExpr_succ (f : Nat) (ts : List Tok) : parseOrExpr (f+1) ts =
    (match parseAndExpr f ts with
     | (none, ts1) => (none, ts1)
     | (some l0, ts1) =>
       match parseOrLoop f [l0] ts1 with
       | ([c], ts2) => (some c, ts2)
       | (cs, ts2) => (some (JFilter.boolF (ab ("OR")) cs), ts2)) := by
  rw [parseOrExpr]

theorem parseAndExpr_succ (f : Nat) (ts : List Tok) : parseAndExpr (f+1) ts =
    (match parseNotExpr f ts with
     | (none, ts1) => (none, ts1)
     | (some l0, ts1) =>
       match parseAndLoop f [l0] ts1 with
       | ([c], ts2) => (some c, ts2)
       | (cs, ts2) => (some (JFilter.boolF (ab ("AND")) cs), ts2)) := by
  rw [parseAndExpr]

theorem parseOrLoop_succ (f : Nat) (acc : List JFilter) (ts : List Tok) :
    parseOrLoop (f+1) acc ts =
    (match ts with
     | Tok.orT :: rest =>
       match parseAndExpr f rest with
       | (r1, ts1) => parseOrLoop f (acc ++ r1.toList) ts1
     | ts => (acc, ts)) := by
  rcases ts with _ | ⟨t, rest⟩
  · rfl
  cases t <;> rfl

theorem parseAndLoop_succ (f : Nat) (acc : List JFilter) (ts : List Tok) :
    parseAndLoop (f+1) acc ts =
    (match ts with
     | Tok.andT :: rest =>
       match parseNotExpr f rest with
       | (r1, ts1) => parseAndLoop f (acc ++ r1.toList) ts1
     | t :: rest =>
       if isStartTok t then
         match parseNotExpr f (t :: rest) with
         | (r1, ts1) => parseAndLoop f (acc ++ r1.toList) ts1
       else (acc, t :: rest)
     | [] => (acc, [])) := by
  rcases ts with _ | ⟨t, rest⟩
  · rfl
  cases t <;> rfl

theorem parseNotExpr_succ (f : Nat) (ts : List Tok) : parseNotExpr (f+1) ts =
    (match ts with
     | Tok.notT :: rest =>
       match parseNotExpr f rest with
       | (none, ts1) => (none, ts1)
       | (some o, ts1) => (some (JFilter.boolF (ab ("NOT")) [o]), ts1)
     | ts => parsePrimary f ts) := by
  rcases ts with _ | ⟨t, rest⟩
  · rfl
  cases t <;> rfl

theorem parsePrimary_succ (f : Nat) (ts : List Tok) : parsePrimary (f+1) ts =
    (match ts with
     | Tok.lpar :: rest =>
       match parseOrExpr f rest with
       | (e, Tok.rpar :: ts2) => (e, ts2)
       | (e, ts1) => (e, ts1)
     | ts => parseTerm ts) := by
  rcases ts with _ | ⟨t, rest⟩
  · rfl
  cases t <;> rfl

theorem isKeywordTable_wf {v : List Nat} {r : JFilter} (h : isKeywordTable v = some r) :
    WfFilter r := by
  rw [isKeywordTable] at h
  split_ifs at h <;> (injection h with h; rw [← h]; exact WfFilter.text _ _)

theorem dispatchField_wf (t fd v : List Nat) : WfFilter (dispatchField t fd v) := by
  rw [dispatchField]
  split_ifs <;> first
    | exact WfFilter.text _ _
    | exact WfFilter.hasAtt _
    | skip
  rcases e : isKeywordTable (lowerGo v) with _ | p
  · exact WfFilter.text _ _
  · exact isKeywordTable_wf e

theorem fieldSwitch_wf (t fd v : List Nat) : WfFilter (fieldSwitch t fd v) := by
  rw [switch_eq_dispatch]
  exact dispatchField_wf t fd v

theorem parseFieldValue_wf (w : List Nat) : WfFilter (parseFieldValue w) := by
  rw [parseFieldValue]
  split_ifs with hp
  · exact fieldSwitch_wf _ _ _
  · exact WfFilter.text _ _

theorem parseTerm_wf {ts : List Tok} {r : JFilter} (h : (parseTerm ts).1 = some r) :
    WfFilter r := by
  cases ts with
  | nil => exact absurd h (by simp [parseTerm])
  | cons t rest =>
    cases t with
    | word w =>
      have hw : parseFieldValue w = r := by simpa [parseTerm] using h
      rw [← hw]
      exact parseFieldValue_wf w
    | andT => exact absurd h (by simp [parseTerm])
    | orT => exact absurd h (by simp [parseTerm])
    | notT => exact absurd h (by simp [parseTerm])
    | lpar => exact absurd h (by simp [parseTerm])
    | rpar => exact absurd h (by simp [parseTerm])

theorem parse_wf : ∀ f : Nat,
    (∀ ts r, (parseOrExpr f ts).1 = some r → WfFilter r) ∧
    (∀ ts r, (parseAndExpr f ts).1 = some r → WfFilter r) ∧
    (∀ ts r, (parseNotExpr f ts).1 = some r → WfFilter r) ∧
    (∀ ts r, (parsePrimary f ts).1 = some r → WfFilter r) ∧
    (∀ acc ts, (∀ c ∈ acc, WfFilter c) →
      ((∀ c ∈ (parseOrLoop f acc ts).1, WfFilter c) ∧
        acc.length ≤ (parseOrLoop f acc ts).1.length)) ∧
    (∀ acc ts, (∀ c ∈ acc, WfFilter c) →
      ((∀ c ∈ (parseAndLoop f acc ts).1, WfFilter c) ∧
        acc.length ≤ (parseAndLoop f acc ts).1.length)) := by
  intro f
  induction f with
  | zero =>
    refine ⟨?_, ?_, ?_, ?_, ?_, ?_⟩
    · intro ts r h; exact absurd h (by simp [parseOrExpr])
    · intro ts r h; exact absurd h (by simp [parseAndExpr])
    · intro ts r h; exact absurd h (by simp [parseNotExpr])
    · intro ts r h; exact absurd h (by simp [parsePrimary])
    · intro acc ts hacc; exact ⟨hacc, le_refl _⟩
    · intro acc ts hacc; exact ⟨hacc, le_refl _⟩
  | succ f ih =>
    obtain ⟨ihOr, ihAnd, ihNot, ihPrim, ihOrL, ihAndL⟩ := ih
    refine ⟨?_, ?_, ?_, ?_, ?_, ?_⟩
    · intro ts r h
      rw [parseOrExpr_succ] at h
      rcases e1 : parseAndExpr f ts with ⟨o, ts1⟩
      rw [e1] at h
      cases o with
      | none => simp at h
      | some l0 =>
        dsimp only at h
        have hl0 : WfFilter l0 := ihAnd ts l0 (by rw [e1])
        rcases e2 : parseOrLoop f [l0] ts1 with ⟨cs, ts2⟩
        rw [e2] at h
        have hloop := ihOrL [l0] ts1 (by intro c hc; simp at hc; rwa [hc])
        rw [e2] at hloop
        obtain ⟨hwf, hlen⟩ := hloop
        rcases cs with _ | ⟨c1, _ | ⟨c2, cs''⟩⟩
        · simp at hlen
        · simp only [Option.some.injEq] at h
          rw [← h]
          exact hwf c1 (by simp)
        · simp only [Option.some.injEq] at h
          rw [← h]
          exact WfFilter.orNode _ (by simp) hwf
    · intro ts r h
      rw [parseAndExpr_succ] at h
      rcases e1 : parseNotExpr f ts with ⟨o, ts1⟩
      rw [e1] at h
      cases o with
      | none => simp at h
      | some l0 =>
        dsimp only at h
        have hl0 : WfFilter l0 := ihNot ts l0 (by rw [e1])
        rcases e2 : parseAndLoop f [l0] ts1 with ⟨cs, ts2⟩
        rw [e2] at h
        have hloop := ihAndL [l0] ts1 (by intro c hc; simp at hc; rwa [hc])
        rw [e2] at hloop
        obtain ⟨hwf, hlen⟩ := hloop
        rcases cs with _ | ⟨c1, _ | ⟨c2, cs''⟩⟩
        · simp at hlen
        · simp only [Option.some.injEq] at h
          rw [← h]
          exact hwf c1 (by simp)
        · simp only [Option.some.injEq] at h
          rw [← h]
          exact WfFilter.andNode _ (by simp) hwf
    · intro ts r h
      rw [parseNotExpr_succ] at h
      rcases ts with _ | ⟨t, rest⟩
      · exact ihPrim [] r h
      cases t with
      | notT =>
        dsimp only at h
        rcases e1 : parseNotExpr f rest with ⟨o, ts1⟩
        rw [e1] at h
        cases o with
        | none => simp at h
        | some o0 =>
          simp only [Option.some.injEq] at h
          rw [← h]
          exact WfFilter.notNode o0 (ihNot rest o0 (by rw [e1]))
      | word w => exact ihPrim _ r h
      | andT => exact ihPrim _ r h
      | orT => exact ihPrim _ r h
      | lpar => exact ihPrim _ r h
      | rpar => exact ihPrim _ r h
    · intro ts r h
      rw [parsePrimary_succ] at h
      rcases ts with _ | ⟨t, rest⟩
      · exact parseTerm_wf h
      cases t with
      | lpar =>
        dsimp only at h
        rcases e1 : parseOrExpr f rest with ⟨e, ts1⟩
        rw [e1] at h
        rcases ts1 with _ | ⟨u, ts2⟩
        · exact ihOr rest r (by rw [e1]; exact h)
        · cases u <;> exact ihOr rest r (by rw [e1]; exact h)
      | word w => exact parseTerm_wf h
      | andT => exact parseTerm_wf h
      | orT => exact parseTerm_wf h
      | notT => exact parseTerm_wf h
      | rpar => exact parseTerm_wf h
    · intro acc ts hacc
      rw [parseOrLoop_succ]
      rcases ts with _ | ⟨t, rest⟩
      · exact ⟨hacc, le_refl _⟩
      cases t with
      | orT =>
        dsimp only
        rcases e1 : parseAndExpr f rest with ⟨r1, ts1⟩
        dsimp only
        have hacc' : ∀ c ∈ acc ++ r1.toList, WfFilter c := by
          intro c hc
          rcases List.mem_append.mp hc with hc | hc
          · exact hacc c hc
          · cases r1 with
            | none => simp at hc
            | some v =>
              simp only [Option.toList_some, List.mem_singleton] at hc
              rw [hc]
              exact ihAnd rest v (by rw [e1])
        have hl := ihOrL (acc ++ r1.toList) ts1 hacc'
        exact ⟨hl.1, le_trans (by simp) hl.2⟩
      | word w => exact ⟨hacc, le_refl _⟩
      | andT => exact ⟨hacc, le_refl _⟩
      | notT => exact ⟨hacc, le_refl _⟩
      | lpar => exact ⟨hacc, le_refl _⟩
      | rpar => exact ⟨hacc, le_refl _⟩
    · intro acc ts hacc
      rw [parseAndLoop_succ]
      rcases ts with _ | ⟨t, rest⟩
      · exact ⟨hacc, le_refl _⟩
      have himp : ∀ ts0, (∀ c ∈ (match parseNotExpr f ts0 with
              | (r1, ts1) => parseAndLoop f (acc ++ r1.toList) ts1).1, WfFilter c) ∧
            acc.length ≤ (match parseNotExpr f ts0 with
              | (r1, ts1) => parseAndLoop f (acc ++ r1.toList) ts1).1.length := by
        intro ts0
        rcases e1 : parseNotExpr f ts0 with ⟨r1, ts1⟩
        dsimp only
        have hacc' : ∀ c ∈ acc ++ r1.toList, WfFilter c := by
          intro c hc
          rcases List.mem_append.mp hc with hc | hc
          · exact hacc c hc
          · cases r1 with
            | none => simp at hc
            | some v =>
              simp only [Option.toList_some, List.mem_singleton] at hc
              rw [hc]
              exact ihNot ts0 v (by rw [e1])
        have hl := ihAndL (acc ++ r1.toList) ts1 hacc'
        exact ⟨hl.1, le_trans (by simp) hl.2⟩
      cases t with
      | andT => exact himp rest
      | word w => exact himp (Tok.word w :: rest)
      | notT => exact himp (Tok.notT :: rest)
      | lpar => exact himp (Tok.lpar :: rest)
      | orT => exact ⟨hacc, le_refl _⟩
      | rpar => exact ⟨hacc, le_refl _⟩

/-- C4: every boolean node in any tree returned by `ParseQuery`
satisfies the shape invariant — a `NOT` node has exactly one child and
an `AND`/`OR` node has two or more; a single-operand `AND`/`OR` wrapper
is never created, the lone child being returned directly. -/
theorem parseQuery_wellformed : ∀ (input : List Nat) (r : JFilter),
    ParseQuery input = some r → WfFilter r := by
  intro input r h
  rw [ParseQuery] at h
  split at h
  · exact absurd h (by simp)
  · rcases e : tokenize ((trimSpace input).length + 1) (trimSpace input) with _ | ⟨t, ts⟩
    · rw [e] at h
      exact absurd h (by simp [parseToks])
    · rw [e] at h
      exact (parse_wf _).1 _ _ h

/-- Witness for `parseQuery_wellformed` at the query `a OR b`. -/
theorem parseQuery_wellformed_inst :
    ParseQuery (ab ("a OR b")) =
      some (JFilter.boolF (ab ("OR"))
        [JFilter.text (ab ("text")) (ab ("a")), JFilter.text (ab ("text")) (ab ("b"))]) ∧
    WfFilter (JFilter.boolF (ab ("OR"))
      [JFilter.text (ab ("text")) (ab ("a")), JFilter.text (ab ("text")) (ab ("b"))]) :=
  ⟨rfl, parseQuery_wellformed (ab ("a OR b")) _ rfl⟩

/-- C2: `ParseQuery "a OR b AND NOT c"` returns a top-level `OR` node
with exactly two conditions, the free-text predicate for `a` and an
`AND` node of the free-text predicate for `b` and a `NOT` node wrapping
the free-text predicate for `c` — `NOT` binds tighter than `AND`, which
binds tighter than `OR`. -/
theorem parseQuery_precedence_example :
    ParseQuery (ab ("a OR b AND NOT c")) =
      some (JFilter.boolF (ab ("OR"))
        [JFilter.text (ab ("text")) (ab ("a")),
         JFilter.boolF (ab ("AND"))
           [JFilter.text (ab ("text")) (ab ("b")),
            JFilter.boolF (ab ("NOT")) [JFilter.text (ab ("text")) (ab ("c"))]]]) := rfl

theorem parseAndLoop_insert (f : Nat) (acc : List JFilter) (t : Tok) (ts : List Tok)
    (h : isStartTok t = true) :
    parseAndLoop (f+1) acc (Tok.andT :: t :: ts) = parseAndLoop (f+1) acc (t :: ts) := by
  cases t with
  | word w => rfl
  | notT => rfl
  | lpar => rfl
  | andT => exact absurd h (by decide)
  | orT => exact absurd h (by decide)
  | rpar => exact absurd h (by decide)

/-- C5: `from:alice to:bob` and `from:alice AND to:bob` parse to the
same filter and compile to the wire object
`{operator: AND, conditions: [{from: alice}, {to: bob}]}`; in general,
inside the conjunction loop an `AND` token followed by a token that can
start a conjunct behaves exactly as that token alone, so adjacency is
conjoined exactly as an explicit `AND` is. -/
theorem implicit_and_equivalence :
    (∃ F, ParseQuery (ab ("from:alice to:bob")) = some F ∧
      ParseQuery (ab ("from:alice AND to:bob")) = some F ∧
      ToJMAP F = JVal.obj [(ab ("operator"), JVal.str (ab ("AND"))),
        (ab ("conditions"), JVal.arr
          [JVal.obj [(ab ("from"), JVal.str (ab ("alice")))],
           JVal.obj [(ab ("to"), JVal.str (ab ("bob")))]])]) ∧
    (∀ (f : Nat) (acc : List JFilter) (t : Tok) (ts : List Tok), isStartTok t = true →
      parseAndLoop (f+1) acc (Tok.andT :: t :: ts) = parseAndLoop (f+1) acc (t :: ts)) := by
  constructor
  · exact ⟨_, rfl, rfl, rfl⟩
  · intro f acc t ts h
    exact parseAndLoop_insert f acc t ts h

/-- Witness for `implicit_and_equivalence` at a concrete token. -/
theorem implicit_and_equivalence_inst :
    parseAndLoop 1 [] [Tok.andT, Tok.word (ab ("x"))] = parseAndLoop 1 [] [Tok.word (ab ("x"))] :=
  implicit_and_equivalence.2 0 [] (Tok.word (ab ("x"))) [] (by decide)

theorem parse_cons : ∀ f : Nat,
    (∀ ts, (parseOrExpr f ts).2.length ≤ ts.length) ∧
    (∀ ts, (parseAndExpr f ts).2.length ≤ ts.length) ∧
    (∀ ts, (parseNotExpr f ts).2.length ≤ ts.length) ∧
    (∀ ts, (parsePrimary f ts).2.length ≤ ts.length) ∧
    (∀ acc ts, (parseOrLoop f acc ts).2.length ≤ ts.length) ∧
    (∀ acc ts, (parseAndLoop f acc ts).2.length ≤ ts.length) := by
  intro f
  induction f with
  | zero =>
    refine ⟨?_, ?_, ?_, ?_, ?_, ?_⟩ <;> intro ts <;> try intro ts2
    all_goals simp [parseOrExpr, parseAndExpr, parseNotExpr, parsePrimary, parseOrLoop,
      parseAndLoop]
  | succ f ih =>
    obtain ⟨ihOr, ihAnd, ihNot, ihPrim, ihOrL, ihAndL⟩ := ih
    refine ⟨?_, ?_, ?_, ?_, ?_, ?_⟩
    · intro ts
      rw [parseOrExpr_succ]
      rcases e1 : parseAndExpr f ts with ⟨o, ts1⟩
      have h1 : ts1.length ≤ ts.length := by
        have := ihAnd ts
        rw [e1] at this
        exact this
      cases o with
      | none => exact h1
      | some l0 =>
        dsimp only
        rcases e2 : parseOrLoop f [l0] ts1 with ⟨cs, ts2⟩
        have h2 : ts2.length ≤ ts1.length := by
          have := ihOrL [l0] ts1
          rw [e2] at this
          exact this
        rcases cs with _ | ⟨c1, _ | ⟨c2, cs'⟩⟩ <;> dsimp only <;> omega
    · intro ts
      rw [parseAndExpr_succ]
      rcases e1 : parseNotExpr f ts with ⟨o, ts1⟩
      have h1 : ts1.length ≤ ts.length := by
        have := ihNot ts
        rw [e1] at this
        exact this
      cases o with
      | none => exact h1
      | some l0 =>
        dsimp only
        rcases e2 : parseAndLoop f [l0] ts1 with ⟨cs, ts2⟩
        have h2 : ts2.length ≤ ts1.length := by
          have := ihAndL [l0] ts1
          rw [e2] at this
          exact this
        rcases cs with _ | ⟨c1, _ | ⟨c2, cs'⟩⟩ <;> dsimp only <;> omega
    · intro ts
      rw [parseNotExpr_succ]
      rcases ts with _ | ⟨t, rest⟩
      · exact ihPrim []
      cases t with
      | notT =>
        dsimp only
        rcases e1 : parseNotExpr f rest with ⟨o, ts1⟩
        have h1 : ts1.length ≤ rest.length := by
          have := ihNot rest
          rw [e1] at this
          exact this
        cases o <;> dsimp only <;> simp <;> omega
      | word w => exact ihPrim _
      | andT => exact ihPrim _
      | orT => exact ihPrim _
      | lpar => exact ihPrim _
      | rpar => exact ihPrim _
    · intro ts
      rw [parsePrimary_succ]
      rcases ts with _ | ⟨t, rest⟩
      · simp [parseTerm]
      cases t with
      | lpar =>
        dsimp only
        rcases e1 : parseOrExpr f rest with ⟨e, ts1⟩
        have h1 : ts1.length ≤ rest.length := by
          have := ihOr rest
          rw [e1] at this
          exact this
        rcases ts1 with _ | ⟨u, ts2⟩
        · simp
        · cases u <;> dsimp only <;> simp at h1 ⊢ <;> omega
      | word w => simp [parseTerm]
      | andT => simp [parseTerm]
      | orT => simp [parseTerm]
      | notT => simp [parseTerm]
      | rpar => simp [parseTerm]
    · intro acc ts
      rw [parseOrLoop_succ]
      rcases ts with _ | ⟨t, rest⟩
      · simp
      cases t with
      | orT =>
        dsimp only
        rcases e1 : parseAndExpr f rest with ⟨r1, ts1⟩
        have h1 : ts1.length ≤ rest.length := by
          have := ihAnd rest
          rw [e1] at this
          exact this
        have h2 := ihOrL (acc ++ r1.toList) ts1
        simp only [List.length_cons]
        omega
      | word w => simp
      | andT => simp
      | notT => simp
      | lpar => simp
      | rpar => simp
    · intro acc ts
      rw [parseAndLoop_succ]
      rcases ts with _ | ⟨t, rest⟩
      · simp
      have himp : ∀ ts0 : List Tok, ts0.length = rest.length + 1 →
          (match parseNotExpr f ts0 with
            | (r1, ts1) => parseAndLoop f (acc ++ r1.toList) ts1).2.length ≤ rest.length + 1 := by
        intro ts0 hlen
        rcases e1 : parseNotExpr f ts0 with ⟨r1, ts1⟩
        have h1 : ts1.length ≤ ts0.length := by
          have := ihNot ts0
          rw [e1] at this
          exact this
        have h2 := ihAndL (acc ++ r1.toList) ts1
        dsimp only
        omega
      cases t with
      | andT =>
        dsimp only
        rcases e1 : parseNotExpr f rest with ⟨r1, ts1⟩
        have h1 : ts1.length ≤ rest.length := by
          have := ihNot rest
          rw [e1] at this
          exact this
        have h2 := ihAndL (acc ++ r1.toList) ts1
        simp only [List.length_cons]
        omega
      | word w => exact himp (Tok.word w :: rest) (by simp)
      | notT => exact himp (Tok.notT :: rest) (by simp)
      | lpar => exact himp (Tok.lpar :: rest) (by simp)
      | orT => simp [isStartTok]
      | rpar => simp [isStartTok]

theorem orExpr_cons (f : Nat) (ts : List Tok) : (parseOrExpr f ts).2.length ≤ ts.length :=
  (parse_cons f).1 ts

theorem andExpr_cons (f : Nat) (ts : List Tok) : (parseAndExpr f ts).2.length ≤ ts.length :=
  (parse_cons f).2.1 ts

theorem notExpr_cons (f : Nat) (ts : List Tok) : (parseNotExpr f ts).2.length ≤ ts.length :=
  (parse_cons f).2.2.1 ts

theorem primary_cons (f : Nat) (ts : List Tok) : (parsePrimary f ts).2.length ≤ ts.length :=
  (parse_cons f).2.2.2.1 ts

theorem orLoop_cons (f : Nat) (acc : List JFilter) (ts : List Tok) :
    (parseOrLoop f acc ts).2.length ≤ ts.length :=
  (parse_cons f).2.2.2.2.1 acc ts

theorem andLoop_cons (f : Nat) (acc : List JFilter) (ts : List Tok) :
    (parseAndLoop f acc ts).2.length ≤ ts.length :=
  (parse_cons f).2.2.2.2.2 acc ts

theorem parse_strict : ∀ f : Nat,
    (∀ ts r rest, parseOrExpr f ts = (some r, rest) → rest.length < ts.length) ∧
    (∀ ts r rest, parseAndExpr f ts = (some r, rest) → rest.length < ts.length) ∧
    (∀ ts r rest, parseNotExpr f ts = (some r, rest) → rest.length < ts.length) ∧
    (∀ ts r rest, parsePrimary f ts = (some r, rest) → rest.length < ts.length) := by
  intro f
  induction f with
  | zero =>
    refine ⟨?_, ?_, ?_, ?_⟩ <;> intro ts r rest h <;>
      simp [parseOrExpr, parseAndExpr, parseNotExpr, parsePrimary] at h
  | succ f ih =>
    obtain ⟨ihOr, ihAnd, ihNot, ihPrim⟩ := ih
    refine ⟨?_, ?_, ?_, ?_⟩
    · intro ts r rest h
      rw [parseOrExpr_succ] at h
      rcases e1 : parseAndExpr f ts with ⟨o, ts1⟩
      rw [e1] at h
      cases o with
      | none => simp at h
      | some l0 =>
        dsimp only at h
        have h1 : ts1.length < ts.length := ihAnd ts l0 ts1 e1
        rcases e2 : parseOrLoop f [l0] ts1 with ⟨cs, ts2⟩
        rw [e2] at h
        have h2 : ts2.length ≤ ts1.length := by
          have := orLoop_cons f [l0] ts1
          rw [e2] at this
          exact this
        rcases cs with _ | ⟨c1, _ | _⟩ <;> dsimp only at h <;>
          (injection h with ha hb; rw [← hb]; omega)
    · intro ts r rest h
      rw [parseAndExpr_succ] at h
      rcases e1 : parseNotExpr f ts with ⟨o, ts1⟩
      rw [e1] at h
      cases o with
      | none => simp at h
      | some l0 =>
        dsimp only at h
        have h1 : ts1.length < ts.length := ihNot ts l0 ts1 e1
        rcases e2 : parseAndLoop f [l0] ts1 with ⟨cs, ts2⟩
        rw [e2] at h
        have h2 : ts2.length ≤ ts1.length := by
          have := andLoop_cons f [l0] ts1
          rw [e2] at this
          exact this
        rcases cs with _ | ⟨c1, _ | _⟩ <;> dsimp only at h <;>
          (injection h with ha hb; rw [← hb]; omega)
    · intro ts r rest h
      rw [parseNotExpr_succ] at h
      rcases ts with _ | ⟨t, rest0⟩
      · exact ihPrim [] r rest h
      cases t with
      | notT =>
        dsimp only at h
        rcases e1 : parseNotExpr f rest0 with ⟨o, ts1⟩
        rw [e1] at h
        cases o with
        | none => simp at h
        | some o0 =>
          dsimp only at h
          have h1 : ts1.length ≤ rest0.length := by
            have := notExpr_cons f rest0
            rw [e1] at this
            exact this
          injection h with ha hb
          rw [← hb]
          simp only [List.length_cons]
          omega
      | word w => exact ihPrim _ r rest h
      | andT => exact ihPrim _ r rest h
      | orT => exact ihPrim _ r rest h
      | lpar => exact ihPrim _ r rest h
      | rpar => exact ihPrim _ r rest h
    · intro ts r rest h
      rw [parsePrimary_succ] at h
      rcases ts with _ | ⟨t, rest0⟩
      · simp [parseTerm] at h
      cases t with
      | lpar =>
        dsimp only at h
        rcases e1 : parseOrExpr f rest0 with ⟨e, ts1⟩
        rw [e1] at h
        have h1 : ts1.length ≤ rest0.length := by
          have := orExpr_cons f rest0
          rw [e1] at this
          exact this
        rcases ts1 with _ | ⟨u, ts2⟩
        · dsimp only at h
          injection h with ha hb
          rw [← hb]
          simp
        · cases u <;> dsimp only at h <;> injection h with ha hb <;> rw [← hb] <;>
            simp only [List.length_cons] at h1 ⊢ <;> omega
      | word w =>
        simp only [parseTerm, Prod.mk.injEq] at h
        rw [← h.2]
        simp
      | andT => simp [parseTerm] at h
      | orT => simp [parseTerm] at h
      | notT => simp [parseTerm] at h
      | rpar => simp [parseTerm] at h

theorem parseNotExpr_start_strict (f : Nat) (t : Tok) (rest : List Tok)
    (hst : isStartTok t = true) :
    (parseNotExpr (f+1+1) (t :: rest)).2.length < (t :: rest).length := by
  cases t with
  | word w =>
    rw [parseNotExpr_succ]
    dsimp only
    rw [parsePrimary_succ]
    simp [parseTerm]
  | notT =>
    rw [parseNotExpr_succ]
    dsimp only
    rcases e1 : parseNotExpr (f+1) rest with ⟨o, ts1⟩
    have h1 : ts1.length ≤ rest.length := by
      have := notExpr_cons (f+1) rest
      rw [e1] at this
      exact this
    cases o <;> dsimp only <;> simp only [List.length_cons] <;> omega
  | lpar =>
    rw [parseNotExpr_succ]
    dsimp only
    rw [parsePrimary_succ]
    dsimp only
    rcases e1 : parseOrExpr f rest with ⟨e, ts1⟩
    have h1 : ts1.length ≤ rest.length := by
      have := orExpr_cons f rest
      rw [e1] at this
      exact this
    rcases ts1 with _ | ⟨u, ts2⟩
    · simp
    · cases u <;> dsimp only <;> simp only [List.length_cons] at h1 ⊢ <;> omega
  | andT => exact absurd hst (by decide)
  | orT => exact absurd hst (by decide)
  | rpar => exact absurd hst (by decide)

theorem parse_mono : ∀ f : Nat,
    (∀ ts, 5 * ts.length + 5 ≤ f → parseOrExpr (f+1) ts = parseOrExpr f ts) ∧
    (∀ ts, 5 * ts.length + 4 ≤ f → parseAndExpr (f+1) ts = parseAndExpr f ts) ∧
    (∀ ts, 5 * ts.length + 3 ≤ f → parseNotExpr (f+1) ts = parseNotExpr f ts) ∧
    (∀ ts, 5 * ts.length + 2 ≤ f → parsePrimary (f+1) ts = parsePrimary f ts) ∧
    (∀ acc ts, 5 * ts.length + 5 ≤ f → parseOrLoop (f+1) acc ts = parseOrLoop f acc ts) ∧
    (∀ acc ts, 5 * ts.length + 5 ≤ f → parseAndLoop (f+1) acc ts = parseAndLoop f acc ts) := by
  intro f
  induction f with
  | zero =>
    refine ⟨?_, ?_, ?_, ?_, ?_, ?_⟩ <;> intro ts h <;> omega
  | succ f ih =>
    obtain ⟨ihOr, ihAnd, ihNot, ihPrim, ihOrL, ihAndL⟩ := ih
    refine ⟨?_, ?_, ?_, ?_, ?_, ?_⟩
    · intro ts h
      rw [parseOrExpr_succ (f+1), parseOrExpr_succ f]
      have hand := ihAnd ts (by omega)
      rw [hand]
      rcases e1 : parseAndExpr f ts with ⟨o, ts1⟩
      cases o with
      | none => rfl
      | some l0 =>
        dsimp only
        have hs : ts1.length < ts.length := (parse_strict f).2.1 ts l0 ts1 e1
        have hloop := ihOrL [l0] ts1 (by omega)
        rw [hloop]
    · intro ts h
      rw [parseAndExpr_succ (f+1), parseAndExpr_succ f]
      have hnot := ihNot ts (by omega)
      rw [hnot]
      rcases e1 : parseNotExpr f ts with ⟨o, ts1⟩
      cases o with
      | none => rfl
      | some l0 =>
        dsimp only
        have hs : ts1.length < ts.length := (parse_strict f).2.2.1 ts l0 ts1 e1
        have hloop := ihAndL [l0] ts1 (by omega)
        rw [hloop]
    · intro ts h
      rw [parseNotExpr_succ (f+1), parseNotExpr_succ f]
      rcases ts with _ | ⟨t, rest⟩
      · exact ihPrim [] (by omega)
      cases t with
      | notT =>
        dsimp only
        have hin := ihNot rest (by simp at h; omega)
        rw [hin]
      | word w => exact ihPrim _ (by simp at h ⊢; omega)
      | andT => exact ihPrim _ (by simp at h ⊢; omega)
      | orT => exact ihPrim _ (by simp at h ⊢; omega)
      | lpar => exact ihPrim _ (by simp at h ⊢; omega)
      | rpar => exact ihPrim _ (by simp at h ⊢; omega)
    · intro ts h
      rw [parsePrimary_succ (f+1), parsePrimary_succ f]
      rcases ts with _ | ⟨t, rest⟩
      · rfl
      cases t with
      | lpar =>
        dsimp only
        have hin := ihOr rest (by simp at h; omega)
        rw [hin]
      | word w => rfl
      | andT => rfl
      | orT => rfl
      | notT => rfl
      | rpar => rfl
    · intro acc ts h
      rw [parseOrLoop_succ (f+1), parseOrLoop_succ f]
      rcases ts with _ | ⟨t, rest⟩
      · rfl
      cases t with
      | orT =>
        dsimp only
        have hin := ihAnd rest (by simp at h; omega)
        rw [hin]
        rcases e1 : parseAndExpr f rest with ⟨r1, ts1⟩
        dsimp only
        have hw : ts1.length ≤ rest.length := by
          have := andExpr_cons f rest
          rw [e1] at this
          exact this
        exact ihOrL (acc ++ r1.toList) ts1 (by simp at h; omega)
      | word w => rfl
      | andT => rfl
      | notT => rfl
      | lpar => rfl
      | rpar => rfl
    · intro acc ts h
      rw [parseAndLoop_succ (f+1), parseAndLoop_succ f]
      rcases ts with _ | ⟨t, rest⟩
      · rfl
      have hf2 : ∃ g, f = g + 1 + 1 := ⟨f - 2, by simp at h; omega⟩
      obtain ⟨g, rfl⟩ := hf2
      have himp : ∀ t0 : Tok, isStartTok t0 = true →
          parseAndLoop (g+1+1+1) (acc ++ (parseNotExpr (g+1+1) (t0 :: rest)).1.toList)
            (parseNotExpr (g+1+1) (t0 :: rest)).2 =
          parseAndLoop (g+1+1) (acc ++ (parseNotExpr (g+1+1) (t0 :: rest)).1.toList)
            (parseNotExpr (g+1+1) (t0 :: rest)).2 := by
        intro t0 hst
        rcases e1 : parseNotExpr (g+1+1) (t0 :: rest) with ⟨r1, ts1⟩
        dsimp only
        have hstrict := parseNotExpr_start_strict g t0 rest hst
        rw [e1] at hstrict
        exact ihAndL (acc ++ r1.toList) ts1 (by simp at h hstrict; omega)
      cases t with
      | andT =>
        dsimp only
        have hin := ihNot rest (by simp at h; omega)
        rw [hin]
        rcases e1 : parseNotExpr (g+1+1) rest with ⟨r1, ts1⟩
        dsimp only
        have hw : ts1.length ≤ rest.length := by
          have := notExpr_cons (g+1+1) rest
          rw [e1] at this
          exact this
        exact ihAndL (acc ++ r1.toList) ts1 (by simp at h; omega)
      | word w =>
        dsimp only
        have hin := ihNot (Tok.word w :: rest) (by simp at h ⊢; omega)
        rw [hin]
        exact himp (Tok.word w) rfl
      | notT =>
        dsimp only
        have hin := ihNot (Tok.notT :: rest) (by simp at h ⊢; omega)
        rw [hin]
        exact himp Tok.notT rfl
      | lpar =>
        dsimp only
        have hin := ihNot (Tok.lpar :: rest) (by simp at h ⊢; omega)
        rw [hin]
        exact himp Tok.lpar rfl
      | orT => rfl
      | rpar => rfl

theorem parseOrExpr_mono_ge (f g : Nat) (ts : List Tok) (hf : 5 * ts.length + 5 ≤ f)
    (hfg : f ≤ g) : parseOrExpr g ts = parseOrExpr f ts := by
  induction g, hfg using Nat.le_induction with
  | base => rfl
  | succ g hg ih =>
    rw [(parse_mono g).1 ts (by omega), ih]

theorem orLoop_nil (f : Nat) (acc : List JFilter) : parseOrLoop f acc [] = (acc, []) := by
  cases f <;> rfl

theorem andLoop_nil (f : Nat) (acc : List JFilter) : parseAndLoop f acc [] = (acc, []) := by
  cases f <;> rfl

theorem parseAndLoop_start (f : Nat) (acc : List JFilter) (t : Tok) (rest : List Tok)
    (hst : isStartTok t = true) :
    parseAndLoop (f+1) acc (t :: rest) =
      (match parseNotExpr f (t :: rest) with
       | (r1, ts1) => parseAndLoop f (acc ++ r1.toList) ts1) := by
  cases t with
  | word w => rfl
  | notT => rfl
  | lpar => rfl
  | andT => exact absurd hst (by decide)
  | orT => exact absurd hst (by decide)
  | rpar => exact absurd hst (by decide)

theorem parse_ext : ∀ f : Nat,
    (∀ ts, (parseOrExpr f (ts ++ [Tok.rpar])).1 = (parseOrExpr f ts).1 ∧
      ((parseOrExpr f (ts ++ [Tok.rpar])).2 = (parseOrExpr f ts).2 ++ [Tok.rpar] ∨
        ((parseOrExpr f ts).2 = [] ∧ (parseOrExpr f (ts ++ [Tok.rpar])).2 = []))) ∧
    (∀ ts, (parseAndExpr f (ts ++ [Tok.rpar])).1 = (parseAndExpr f ts).1 ∧
      ((parseAndExpr f (ts ++ [Tok.rpar])).2 = (parseAndExpr f ts).2 ++ [Tok.rpar] ∨
        ((parseAndExpr f ts).2 = [] ∧ (parseAndExpr f (ts ++ [Tok.rpar])).2 = []))) ∧
    (∀ ts, (parseNotExpr f (ts ++ [Tok.rpar])).1 = (parseNotExpr f ts).1 ∧
      ((parseNotExpr f (ts ++ [Tok.rpar])).2 = (parseNotExpr f ts).2 ++ [Tok.rpar] ∨
        ((parseNotExpr f ts).2 = [] ∧ (parseNotExpr f (ts ++ [Tok.rpar])).2 = []))) ∧
    (∀ ts, (parsePrimary f (ts ++ [Tok.rpar])).1 = (parsePrimary f ts).1 ∧
      ((parsePrimary f (ts ++ [Tok.rpar])).2 = (parsePrimary f ts).2 ++ [Tok.rpar] ∨
        ((parsePrimary f ts).2 = [] ∧ (parsePrimary f (ts ++ [Tok.rpar])).2 = []))) ∧
    (∀ acc ts, (parseOrLoop f acc (ts ++ [Tok.rpar])).1 = (parseOrLoop f acc ts).1 ∧
      ((parseOrLoop f acc (ts ++ [Tok.rpar])).2 = (parseOrLoop f acc ts).2 ++ [Tok.rpar] ∨
        ((parseOrLoop f acc ts).2 = [] ∧ (parseOrLoop f acc (ts ++ [Tok.rpar])).2 = []))) ∧
    (∀ acc ts, (parseAndLoop f acc (ts ++ [Tok.rpar])).1 = (parseAndLoop f acc ts).1 ∧
      ((parseAndLoop f acc (ts ++ [Tok.rpar])).2 = (parseAndLoop f acc ts).2 ++ [Tok.rpar] ∨
        ((parseAndLoop f acc ts).2 = [] ∧ (parseAndLoop f acc (ts ++ [Tok.rpar])).2 = []))) := by
  intro f
  induction f with
  | zero =>
    refine ⟨?_, ?_, ?_, ?_, ?_, ?_⟩ <;> intros <;> exact ⟨rfl, Or.inl rfl⟩
  | succ f ih =>
    obtain ⟨ihOr, ihAnd, ihNot, ihPrim, ihOrL, ihAndL⟩ := ih
    refine ⟨?_, ?_, ?_, ?_, ?_, ?_⟩
    · intro ts
      rw [parseOrExpr_succ f (ts ++ [Tok.rpar]), parseOrExpr_succ f ts]
      have hA := ihAnd ts
      rcases e : parseAndExpr f ts with ⟨o, ts1⟩
      rcases e' : parseAndExpr f (ts ++ [Tok.rpar]) with ⟨o', ts1'⟩
      rw [e, e'] at hA
      dsimp only at hA
      obtain ⟨ho, hrel⟩ := hA
      subst ho
      cases o' with
      | none => exact ⟨rfl, hrel⟩
      | some l0 =>
        dsimp only
        rcases hrel with hrel | ⟨h1, h2⟩
        · subst hrel
          have hL := ihOrL [l0] ts1
          rcases eL : parseOrLoop f [l0] ts1 with ⟨cs, ts2⟩
          rcases eL' : parseOrLoop f [l0] (ts1 ++ [Tok.rpar]) with ⟨cs', ts2'⟩
          rw [eL, eL'] at hL
          dsimp only at hL
          obtain ⟨hcs, hrel2⟩ := hL
          subst hcs
          rcases cs' with _ | ⟨c1, _ | _⟩ <;> exact ⟨rfl, hrel2⟩
        · subst h1
          subst h2
          rw [orLoop_nil]
          exact ⟨rfl, Or.inr ⟨rfl, rfl⟩⟩
    · intro ts
      rw [parseAndExpr_succ f (ts ++ [Tok.rpar]), parseAndExpr_succ f ts]
      have hA := ihNot ts
      rcases e : parseNotExpr f ts with ⟨o, ts1⟩
      rcases e' : parseNotExpr f (ts ++ [Tok.rpar]) with ⟨o', ts1'⟩
      rw [e, e'] at hA
      dsimp only at hA
      obtain ⟨ho, hrel⟩ := hA
      subst ho
      cases o' with
      | none => exact ⟨rfl, hrel⟩
      | some l0 =>
        dsimp only
        rcases hrel with hrel | ⟨h1, h2⟩
        · subst hrel
          have hL := ihAndL [l0] ts1
          rcases eL : parseAndLoop f [l0] ts1 with ⟨cs, ts2⟩
          rcases eL' : parseAndLoop f [l0] (ts1 ++ [Tok.rpar]) with ⟨cs', ts2'⟩
          rw [eL, eL'] at hL
          dsimp only at hL
          obtain ⟨hcs, hrel2⟩ := hL
          subst hcs
          rcases cs' with _ | ⟨c1, _ | _⟩ <;> exact ⟨rfl, hrel2⟩
        · subst h1
          subst h2
          rw [andLoop_nil]
          exact ⟨rfl, Or.inr ⟨rfl, rfl⟩⟩
    · intro ts
      rcases ts with _ | ⟨t, rest⟩
      · exact ihPrim []
      cases t with
      | notT =>
        simp only [List.cons_append]
        rw [parseNotExpr_succ f (Tok.notT :: (rest ++ [Tok.rpar])),
          parseNotExpr_succ f (Tok.notT :: rest)]
        dsimp only
        have hN := ihNot rest
        rcases e : parseNotExpr f rest with ⟨o, ts1⟩
        rcases e' : parseNotExpr f (rest ++ [Tok.rpar]) with ⟨o', ts1'⟩
        rw [e, e'] at hN
        dsimp only at hN
        obtain ⟨ho, hrel⟩ := hN
        subst ho
        cases o' <;> exact ⟨rfl, hrel⟩
      | word w => exact ihPrim (Tok.word w :: rest)
      | andT => exact ihPrim (Tok.andT :: rest)
      | orT => exact ihPrim (Tok.orT :: rest)
      | lpar => exact ihPrim (Tok.lpar :: rest)
      | rpar => exact ihPrim (Tok.rpar :: rest)
    · intro ts
      rcases ts with _ | ⟨t, rest⟩
      · exact ⟨rfl, Or.inl rfl⟩
      cases t with
      | lpar =>
        simp only [List.cons_append]
        rw [parsePrimary_succ f (Tok.lpar :: (rest ++ [Tok.rpar])),
          parsePrimary_succ f (Tok.lpar :: rest)]
        dsimp only
        have hO := ihOr rest
        rcases e : parseOrExpr f rest with ⟨o, ts1⟩
        rcases e' : parseOrExpr f (rest ++ [Tok.rpar]) with ⟨o', ts1'⟩
        rw [e, e'] at hO
        dsimp only at hO
        obtain ⟨ho, hrel⟩ := hO
        subst ho
        rcases hrel with hrel | ⟨h1, h2⟩
        · subst hrel
          rcases ts1 with _ | ⟨u, ts2⟩
          · exact ⟨rfl, Or.inr ⟨rfl, rfl⟩⟩
          · cases u <;> exact ⟨rfl, Or.inl rfl⟩
        · subst h1
          subst h2
          exact ⟨rfl, Or.inr ⟨rfl, rfl⟩⟩
      | word w => exact ⟨rfl, Or.inl rfl⟩
      | andT => exact ⟨rfl, Or.inl rfl⟩
      | orT => exact ⟨rfl, Or.inl rfl⟩
      | notT => exact ⟨rfl, Or.inl rfl⟩
      | rpar => exact ⟨rfl, Or.inl rfl⟩
    · intro acc ts
      rcases ts with _ | ⟨t, rest⟩
      · exact ⟨rfl, Or.inl rfl⟩
      cases t with
      | orT =>
        simp only [List.cons_append]
        rw [parseOrLoop_succ f acc (Tok.orT :: (rest ++ [Tok.rpar])),
          parseOrLoop_succ f acc (Tok.orT :: rest)]
        dsimp only
        have hA := ihAnd rest
        rcases e : parseAndExpr f rest with ⟨r1, ts1⟩
        rcases e' : parseAndExpr f (rest ++ [Tok.rpar]) with ⟨r1', ts1'⟩
        rw [e, e'] at hA
        dsimp only at hA
        obtain ⟨ho, hrel⟩ := hA
        subst ho
        dsimp only
        rcases hrel with hrel | ⟨h1, h2⟩
        · subst hrel
          exact ihOrL (acc ++ r1'.toList) ts1
        · subst h1
          subst h2
          rw [orLoop_nil]
          exact ⟨rfl, Or.inr ⟨rfl, rfl⟩⟩
      | word w => exact ⟨rfl, Or.inl rfl⟩
      | andT => exact ⟨rfl, Or.inl rfl⟩
      | notT => exact ⟨rfl, Or.inl rfl⟩
      | lpar => exact ⟨rfl, Or.inl rfl⟩
      | rpar => exact ⟨rfl, Or.inl rfl⟩
    · intro acc ts
      rcases ts with _ | ⟨t, rest⟩
      · exact ⟨rfl, Or.inl rfl⟩
      have hstart : ∀ t0 : Tok, isStartTok t0 = true →
          ((parseAndLoop (f+1) acc ((t0 :: rest) ++ [Tok.rpar])).1 =
            (parseAndLoop (f+1) acc (t0 :: rest)).1 ∧
          ((parseAndLoop (f+1) acc ((t0 :: rest) ++ [Tok.rpar])).2 =
              (parseAndLoop (f+1) acc (t0 :: rest)).2 ++ [Tok.rpar] ∨
            ((parseAndLoop (f+1) acc (t0 :: rest)).2 = [] ∧
              (parseAndLoop (f+1) acc ((t0 :: rest) ++ [Tok.rpar])).2 = []))) := by
        intro t0 hst
        simp only [List.cons_append]
        rw [parseAndLoop_start f acc t0 (rest ++ [Tok.rpar]) hst,
          parseAndLoop_start f acc t0 rest hst]
        have hN := ihNot (t0 :: rest)
        simp only [List.cons_append] at hN
        rcases e : parseNotExpr f (t0 :: rest) with ⟨r1, ts1⟩
        rcases e' : parseNotExpr f (t0 :: (rest ++ [Tok.rpar])) with ⟨r1', ts1'⟩
        rw [e, e'] at hN
        dsimp only at hN
        obtain ⟨ho, hrel⟩ := hN
        subst ho
        dsimp only
        rcases hrel with hrel | ⟨h1, h2⟩
        · subst hrel
          exact ihAndL (acc ++ r1'.toList) ts1
        · subst h1
          subst h2
          rw [andLoop_nil]
          exact ⟨rfl, Or.inr ⟨rfl, rfl⟩⟩
      cases t with
      | andT =>
        simp only [List.cons_append]
        rw [parseAndLoop_succ f acc (Tok.andT :: (rest ++ [Tok.rpar])),
          parseAndLoop_succ f acc (Tok.andT :: rest)]
        dsimp only
        have hN := ihNot rest
        rcases e : parseNotExpr f rest with ⟨r1, ts1⟩
        rcases e' : parseNotExpr f (rest ++ [Tok.rpar]) with ⟨r1', ts1'⟩
        rw [e, e'] at hN
        dsimp only at hN
        obtain ⟨ho, hrel⟩ := hN
        subst ho
        dsimp only
        rcases hrel with hrel | ⟨h1, h2⟩
        · subst hrel
          exact ihAndL (acc ++ r1'.toList) ts1
        · subst h1
          subst h2
          rw [andLoop_nil]
          exact ⟨rfl, Or.inr ⟨rfl, rfl⟩⟩
      | word w => exact hstart (Tok.word w) rfl
      | notT => exact hstart Tok.notT rfl
      | lpar => exact hstart Tok.lpar rfl
      | orT => exact ⟨rfl, Or.inl rfl⟩
      | rpar => exact ⟨rfl, Or.inl rfl⟩

/-- C6: corrected. At the token level the claim holds: a `)` token seen with no
open `(` group stops consumption ("a) b" parses to just the text filter "a"),
and appending a closing `)` token to a query opened by `(` never changes the
parse, so "(a OR b" and "(a OR b)" agree. But the string-level sentence "for
every expression E with balanced internal parens, ParseQuery(\x22(\x22 + E)
returns the same filter as ParseQuery(\x22(\x22 + E + \x22)\x22)" is false,
because an unterminated quote inside E swallows the appended `)` into the
quoted phrase (see the counterexample). -/
theorem paren_append_tokens :
    (∀ T : List Tok, parseToks (Tok.lpar :: T) = parseToks ((Tok.lpar :: T) ++ [Tok.rpar])) ∧
    ParseQuery (ab ("(a OR b")) = ParseQuery (ab ("(a OR b)")) ∧
    ParseQuery (ab ("a) b")) = some (JFilter.text (ab ("text")) (ab ("a"))) := by
  refine ⟨?_, rfl, rfl⟩
  intro T
  have h1 : parseToks (Tok.lpar :: T) =
      (parseOrExpr (5 * (T.length + 1) + 5) (Tok.lpar :: T)).1 := rfl
  have h2 : parseToks ((Tok.lpar :: T) ++ [Tok.rpar]) =
      (parseOrExpr (5 * ((Tok.lpar :: T) ++ [Tok.rpar]).length + 5)
        ((Tok.lpar :: T) ++ [Tok.rpar])).1 := rfl
  have hlen : ((Tok.lpar :: T) ++ [Tok.rpar]).length = T.length + 1 + 1 := by simp
  rw [h1, h2, hlen]
  have hext := ((parse_ext (5 * (T.length + 1 + 1) + 5)).1 (Tok.lpar :: T)).1
  rw [hext]
  rw [parseOrExpr_mono_ge (5 * (T.length + 1) + 5) (5 * (T.length + 1 + 1) + 5)
    (Tok.lpar :: T) (by simp only [List.length_cons]; omega) (by omega)]

/-- C6 counterexample: the string "\x22x" has balanced (zero) parentheses, yet
prefixing "(" and appending ")" changes the result: ParseQuery "(\x22x" is the
text filter on "x" while ParseQuery "(\x22x)" is the text filter on "x)" — the
appended `)` is swallowed by the unterminated quote. -/
theorem paren_append_quote_counterexample :
    parenBalanced (ab ("\"x")) = true ∧
    ParseQuery (ab ("(\"x")) ≠ ParseQuery (ab ("(\"x)")) := by
  refine ⟨by decide, ?_⟩
  intro h
  rw [show ParseQuery (ab ("(\"x")) = some (JFilter.text (ab ("text")) [120]) from rfl,
    show ParseQuery (ab ("(\"x)")) = some (JFilter.text (ab ("text")) [120, 41]) from rfl] at h
  injection h with h
  injection h with h1 h2
  exact absurd h2 (by decide)

theorem scanQ_no_quote (q : Nat) : ∀ l : List Nat, q ∉ l → scanQ q l = (l, [])
  | [], _ => rfl
  | b :: bs, h => by
    have hbq : (b == q) = false := by
      simp only [beq_eq_false_iff_ne]
      rintro rfl
      exact h (List.mem_cons_self _ _)
    have htail : q ∉ bs := fun hm => h (List.mem_cons_of_mem _ hm)
    by_cases hb : b = 92
    · subst hb
      rcases bs with _ | ⟨c, cs⟩
      · rw [scanQ.eq_def]
        simp [hbq]
      · have hcs : q ∉ cs := fun hm => htail (List.mem_cons_of_mem _ hm)
        have ih := scanQ_no_quote q cs hcs
        rw [scanQ.eq_def]
        simp [hbq, ih]
    · have ih := scanQ_no_quote q bs htail
      rw [scanQ.eq_def]
      simp [hbq, hb, ih]

theorem scanQ_pre (q : Nat) : ∀ pre suf : List Nat, q ∉ pre → (92 : Nat) ∉ pre →
    scanQ q (pre ++ q :: suf) = (pre, suf)
  | [], suf, _, _ => by
    rw [List.nil_append, scanQ.eq_def]
    simp
  | b :: pre, suf, hq, h92 => by
    have hbq : (b == q) = false := by
      simp only [beq_eq_false_iff_ne]
      rintro rfl
      exact hq (List.mem_cons_self _ _)
    have hb92 : (b == 92) = false := by
      simp only [beq_eq_false_iff_ne]
      rintro rfl
      exact h92 (List.mem_cons_self _ _)
    have ih := scanQ_pre q pre suf (fun hm => hq (List.mem_cons_of_mem _ hm))
      (fun hm => h92 (List.mem_cons_of_mem _ hm))
    rw [List.cons_append, scanQ.eq_def]
    simp [hbq, hb92, ih]

theorem replacePair_cons_keep (q a : Nat) (l : List Nat) (ha : a ≠ 92) :
    replacePair q (a :: l) = a :: replacePair q l := by
  rcases l with _ | ⟨b, rest⟩
  · rfl
  · rw [replacePair.eq_def]
    simp [ha]

theorem replacePair_id (q : Nat) : ∀ l : List Nat, (92 : Nat) ∉ l → replacePair q l = l
  | [], _ => rfl
  | a :: l, h => by
    have ha : a ≠ 92 := by
      rintro rfl
      exact h (List.mem_cons_self _ _)
    have ih := replacePair_id q l (fun hm => h (List.mem_cons_of_mem _ hm))
    rw [replacePair_cons_keep q a l ha, ih]

theorem unescapeQ_id (l : List Nat) (h : (92 : Nat) ∉ l) : unescapeQ l = l := by
  rw [unescapeQ, replacePair_id 34 l h, replacePair_id 39 l h]

theorem nextToken_quote (q : Nat) (rest : List Nat) (hq : q = 34 ∨ q = 39) :
    nextToken (q :: rest) =
      (some (Tok.word (unescapeQ (scanQ q rest).1)), (scanQ q rest).2) := by
  rcases hq with rfl | rfl <;> rfl

/-- C7: confirmed. A `"` or `'` starts a quoted span read through to the
matching close quote (first conjunct: an escape-free span delimited by the
matching quote becomes exactly that Word token); with no closing quote the
whole remainder of input is the phrase and no error occurs (second
conjunct); backslash-quote pairs unescape to the literal quote (third and
fourth conjuncts); ParseQuery "\x22abc" is the free-text filter for "abc",
and escapes inside a quoted span are collapsed ("\x22a\\\x22b\x22" gives the
text value a\x22b). -/
theorem quoted_span_behavior :
    (∀ (q : Nat) (pre suf : List Nat), (q = 34 ∨ q = 39) → q ∉ pre → (92 : Nat) ∉ pre →
      nextToken (q :: (pre ++ q :: suf)) = (some (Tok.word pre), suf)) ∧
    (∀ (q : Nat) (rest : List Nat), (q = 34 ∨ q = 39) → q ∉ rest → (92 : Nat) ∉ rest →
      nextToken (q :: rest) = (some (Tok.word rest), [])) ∧
    (∀ l, unescapeQ (92 :: 34 :: l) = 34 :: unescapeQ l) ∧
    (∀ l, unescapeQ (92 :: 39 :: l) = 39 :: unescapeQ l) ∧
    ParseQuery (ab ("\"abc")) = some (JFilter.text (ab ("text")) (ab ("abc"))) ∧
    ParseQuery [34, 97, 92, 34, 98, 34] = some (JFilter.text (ab ("text")) [97, 34, 98]) := by
  refine ⟨?_, ?_, ?_, ?_, rfl, rfl⟩
  · intro q pre suf hq hqp h92
    rw [nextToken_quote q _ hq, scanQ_pre q pre suf hqp h92]
    dsimp only
    rw [unescapeQ_id pre h92]
  · intro q rest hq hqr h92
    rw [nextToken_quote q _ hq, scanQ_no_quote q rest hqr]
    dsimp only
    rw [unescapeQ_id rest h92]
  · intro l
    simp only [unescapeQ]
    rw [show replacePair 34 (92 :: 34 :: l) = 34 :: replacePair 34 l from by
      rw [replacePair.eq_def]
      simp]
    exact replacePair_cons_keep 39 34 (replacePair 34 l) (by decide)
  · intro l
    simp only [unescapeQ]
    have h1 : replacePair 34 (92 :: 39 :: l) = 92 :: 39 :: replacePair 34 l := by
      rw [show replacePair 34 (92 :: 39 :: l) = 92 :: replacePair 34 (39 :: l) from by
        rw [replacePair.eq_def]
        simp]
      rw [replacePair_cons_keep 34 39 l (by decide)]
    rw [h1]
    rw [show replacePair 39 (92 :: 39 :: replacePair 34 l) =
      39 :: replacePair 39 (replacePair 34 l) from by
      rw [replacePair.eq_def]
      simp]

/-- C7 witness: the general quoted-span facts applied at concrete inputs:
reading "a" delimited by double quotes leaves "b" as the rest, and an
unterminated single quote takes the whole remainder "x". -/
theorem quoted_span_behavior_inst :
    nextToken (34 :: ([97] ++ 34 :: [98])) = (some (Tok.word [97]), [98]) ∧
    nextToken (39 :: [120]) = (some (Tok.word [120]), []) :=
  ⟨quoted_span_behavior.1 34 [97] [98] (Or.inl rfl) (by decide) (by decide),
   quoted_span_behavior.2.1 39 [120] (Or.inr rfl) (by decide) (by decide)⟩

/-- C8: confirmed. An unquoted word is classified as an operator token exactly
when its ASCII upper-casing equals AND, OR or NOT (so the match is
case-insensitive), any other word becomes a Word token; a quoted span always
becomes a Word token whatever its content; hence "a or b", "a Or b" and
"a OR b" all parse (and so compile) identically, while a quoted "or" is the
free-text filter for or. -/
theorem operator_classification :
    (∀ w : List Nat,
      (classifyWord w = Tok.andT ↔ upperAscii w = ab ("AND")) ∧
      (classifyWord w = Tok.orT ↔ upperAscii w = ab ("OR")) ∧
      (classifyWord w = Tok.notT ↔ upperAscii w = ab ("NOT")) ∧
      ((upperAscii w ≠ ab ("AND") ∧ upperAscii w ≠ ab ("OR") ∧ upperAscii w ≠ ab ("NOT")) →
        classifyWord w = Tok.word w)) ∧
    (∀ (b : Nat) (l : List Nat), (b = 34 ∨ b = 39) →
      ∃ v rest, nextToken (b :: l) = (some (Tok.word v), rest)) ∧
    ParseQuery (ab ("a or b")) = ParseQuery (ab ("a OR b")) ∧
    ParseQuery (ab ("a Or b")) = ParseQuery (ab ("a OR b")) ∧
    ParseQuery (ab ("\"or\"")) = some (JFilter.text (ab ("text")) (ab ("or"))) := by
  refine ⟨?_, ?_, rfl, rfl, rfl⟩
  · intro w
    by_cases hA : upperAscii w = ab ("AND")
    · have hAb : (upperAscii w == ab ("AND")) = true := beq_iff_eq.mpr hA
      simp +decide [classifyWord, hAb, hA]
    · have hAb : (upperAscii w == ab ("AND")) = false := beq_eq_false_iff_ne.mpr hA
      by_cases hO : upperAscii w = ab ("OR")
      · have hOb : (upperAscii w == ab ("OR")) = true := beq_iff_eq.mpr hO
        simp +decide [classifyWord, hAb, hOb, hO, hA]
      · have hOb : (upperAscii w == ab ("OR")) = false := beq_eq_false_iff_ne.mpr hO
        by_cases hN : upperAscii w = ab ("NOT")
        · have hNb : (upperAscii w == ab ("NOT")) = true := beq_iff_eq.mpr hN
          simp +decide [classifyWord, hAb, hOb, hNb, hN, hA, hO]
        · have hNb : (upperAscii w == ab ("NOT")) = false := beq_eq_false_iff_ne.mpr hN
          simp [classifyWord, hAb, hOb, hNb, hA, hO, hN]
  · intro b l hb
    exact ⟨unescapeQ (scanQ b l).1, (scanQ b l).2, nextToken_quote b l hb⟩

/-- C8 witness: classification applied at concrete inputs: the word "oR"
upper-cases to OR and is the OR operator token, "hello" stays a Word token,
and a double-quoted span yields a Word token. -/
theorem operator_classification_inst :
    classifyWord (ab ("oR")) = Tok.orT ∧
    classifyWord (ab ("hello")) = Tok.word (ab ("hello")) ∧
    ∃ v rest, nextToken (34 :: [97]) = (some (Tok.word v), rest) :=
  ⟨((operator_classification.1 (ab ("oR"))).2.1).mpr (by decide),
   (operator_classification.1 (ab ("hello"))).2.2.2 (by decide),
   operator_classification.2.1 34 [97] (Or.inl rfl)⟩

theorem plainByte_spec (b : Nat) (h : plainByte b = true) :
    isSpaceByte b = false ∧ (b == 40) = false ∧ (b == 41) = false ∧
      (b == 34) = false ∧ (b == 39) = false := by
  rw [plainByte] at h
  simp only [Bool.and_eq_true, Bool.not_eq_true'] at h
  exact ⟨h.1.1.1.1, h.1.1.1.2, h.1.1.2, h.1.2, h.2⟩

theorem skipWhitespace_plain (b : Nat) (l : List Nat) (hb : isSpaceByte b = false) :
    skipWhitespace (b :: l) = b :: l := by
  rw [skipWhitespace.eq_def]
  simp [hb]

theorem skipWhitespace_space (b : Nat) (l : List Nat) (hb : isSpaceByte b = true) :
    skipWhitespace (b :: l) = skipWhitespace l := by
  rw [skipWhitespace.eq_def]
  simp [hb]

theorem nextToken_space (b : Nat) (l : List Nat) (hb : isSpaceByte b = true) :
    nextToken (b :: l) = nextToken l := by
  rw [nextToken, nextToken, skipWhitespace_space b l hb]

theorem quoteHead_of_plain (l tail : List Nat) (h : l.all plainByte = true)
    (ht : quoteHead tail = false) : quoteHead (l ++ tail) = false := by
  rcases l with _ | ⟨c, l'⟩
  · simpa using ht
  · obtain ⟨hc, -⟩ : plainByte c = true ∧ l'.all plainByte = true := by simpa using h
    obtain ⟨-, -, -, h34, h39⟩ := plainByte_spec c hc
    rw [List.cons_append, quoteHead]
    simp [h34, h39]

theorem readWord_plain : ∀ w rest : List Nat, w.all plainByte = true →
    readWord (w ++ 32 :: rest) = (w, 32 :: rest)
  | [], rest, _ => by
    rw [List.nil_append, readWord.eq_def]
    simp [isSpaceByte]
  | b :: w, rest, h => by
    obtain ⟨hb, hw⟩ : plainByte b = true ∧ w.all plainByte = true := by simpa using h
    obtain ⟨hsp, h40, h41, h34, h39⟩ := plainByte_spec b hb
    have ih := readWord_plain w rest hw
    have hqh : quoteHead (w ++ 32 :: rest) = false :=
      quoteHead_of_plain w (32 :: rest) hw rfl
    rw [List.cons_append, readWord.eq_def]
    simp [hsp, h40, h41, hqh, ih]

theorem readWord_plain_all : ∀ w : List Nat, w.all plainByte = true → readWord w = (w, [])
  | [], _ => rfl
  | b :: w, h => by
    obtain ⟨hb, hw⟩ : plainByte b = true ∧ w.all plainByte = true := by simpa using h
    obtain ⟨hsp, h40, h41, h34, h39⟩ := plainByte_spec b hb
    have ih := readWord_plain_all w hw
    have hqh : quoteHead w = false := by
      have := quoteHead_of_plain w [] hw rfl
      rwa [List.append_nil] at this
    rw [readWord.eq_def]
    simp [hsp, h40, h41, hqh, ih]

theorem nextToken_word (b : Nat) (l : List Nat) (hb : plainByte b = true) :
    nextToken (b :: l) =
      (some (classifyWord (readWord (b :: l)).1), (readWord (b :: l)).2) := by
  obtain ⟨hsp, h40, h41, h34, h39⟩ := plainByte_spec b hb
  rw [nextToken, skipWhitespace_plain b l hsp]
  simp [h40, h41, h34, h39]

theorem tokenize_nil (f : Nat) : tokenize f [] = [] := by
  cases f <;> rfl

theorem tokenize_succ (f : Nat) (l : List Nat) :
    tokenize (f+1) l =
      (match nextToken l with
       | (none, _) => []
       | (some t, rest) => t :: tokenize f rest) := rfl

theorem tokenize_two (f : Nat) (w1 w2 : List Nat) (hne1 : w1 ≠ []) (hne2 : w2 ≠ [])
    (ha1 : w1.all plainByte = true) (ha2 : w2.all plainByte = true) :
    tokenize (f + 2) (w1 ++ 32 :: w2) = [classifyWord w1, classifyWord w2] := by
  rcases w1 with _ | ⟨b1, v1⟩
  · exact absurd rfl hne1
  rcases w2 with _ | ⟨b2, v2⟩
  · exact absurd rfl hne2
  obtain ⟨hb1, hv1⟩ : plainByte b1 = true ∧ v1.all plainByte = true := by simpa using ha1
  obtain ⟨hb2, hv2⟩ : plainByte b2 = true ∧ v2.all plainByte = true := by simpa using ha2
  have hrw1 := readWord_plain (b1 :: v1) (b2 :: v2) ha1
  rw [List.cons_append] at hrw1
  have hnt1 := nextToken_word b1 (v1 ++ 32 :: b2 :: v2) hb1
  rw [hrw1] at hnt1
  dsimp only at hnt1
  have hrw2 := readWord_plain_all (b2 :: v2) ha2
  have hnt2 := nextToken_word b2 v2 hb2
  rw [hrw2] at hnt2
  dsimp only at hnt2
  have hnt2' : nextToken (32 :: b2 :: v2) = (some (classifyWord (b2 :: v2)), []) := by
    rw [nextToken_space 32 (b2 :: v2) rfl, hnt2]
  rw [List.cons_append]
  show tokenize ((f + 1) + 1) (b1 :: (v1 ++ 32 :: b2 :: v2)) = _
  rw [tokenize_succ (f+1) _, hnt1]
  dsimp only
  rw [tokenize_succ f _, hnt2']
  dsimp only
  rw [tokenize_nil f]

/-- C9: corrected. The source skips whitespace byte-by-byte with
`unicode.IsSpace(rune(input[pos]))`, so the separator set is the BYTE values
9-13, 32, 133 and 160, not Unicode whitespace characters: any byte that is
space under this byte-wise test is skipped before a token (second conjunct);
two nonempty words of plain bytes joined by a space byte tokenize to exactly
those two classified words under the fuel ParseQuery uses (first conjunct);
and "a b" parses as the implicit AND of the two free-text filters (third
conjunct). The original claim about non-ASCII Unicode whitespace is refuted
by the counterexample theorem. -/
theorem byte_space_separator :
    (∀ w1 w2 : List Nat, w1 ≠ [] → w2 ≠ [] →
      w1.all plainByte = true → w2.all plainByte = true →
      tokenize ((w1 ++ 32 :: w2).length + 1) (w1 ++ 32 :: w2) =
        [classifyWord w1, classifyWord w2]) ∧
    (∀ (b : Nat) (l : List Nat), isSpaceByte b = true →
      skipWhitespace (b :: l) = skipWhitespace l) ∧
    ParseQuery [97, 32, 98] = some (JFilter.boolF (ab ("AND"))
      [JFilter.text (ab ("text")) [97], JFilter.text (ab ("text")) [98]]) := by
  refine ⟨?_, ?_, rfl⟩
  · intro w1 w2 h1 h2 ha1 ha2
    obtain ⟨g, hg⟩ : ∃ g, (w1 ++ 32 :: w2).length + 1 = g + 2 := by
      refine ⟨(w1 ++ 32 :: w2).length - 1, ?_⟩
      have : 0 < (w1 ++ 32 :: w2).length := by simp
      omega
    rw [hg]
    exact tokenize_two g w1 w2 h1 h2 ha1 ha2
  · intro b l hb
    exact skipWhitespace_space b l hb

/-- C9 counterexample: the UTF-8 bytes of U+2000 (a Unicode space) between
"a" and "b" do NOT separate tokens — the whole byte sequence becomes one
free-text word — and the bytes of U+00A0 are split across two tokens
(160 is treated as a space byte while 194 is not), mangling the character.
Both refute "any Unicode whitespace character acts as a token separator and
multi-byte characters are never split". -/
theorem unicode_space_not_separator :
    ParseQuery [97, 226, 128, 128, 98] =
      some (JFilter.text (ab ("text")) [97, 226, 128, 128, 98]) ∧
    ParseQuery [97, 194, 160, 98] = some (JFilter.boolF (ab ("AND"))
      [JFilter.text (ab ("text")) [97, 194], JFilter.text (ab ("text")) [98]]) :=
  ⟨rfl, rfl⟩

/-- C9 witness: the separator facts applied at the concrete input "a b". -/
theorem byte_space_separator_inst :
    tokenize (([97] ++ 32 :: [98]).length + 1) ([97] ++ 32 :: [98]) =
      [classifyWord [97], classifyWord [98]] ∧
    skipWhitespace (32 :: [97]) = skipWhitespace [97] :=
  ⟨byte_space_separator.1 [97] [98] (by decide) (by decide) (by decide) (by decide),
   byte_space_separator.2.1 32 [97] (by decide)⟩

/-- C1: corrected. An empty or whitespace-only input (one whose TrimSpace is
empty) yields no filter, and a plain word yields a tree; but the second half
of the original claim is false: the non-empty, non-whitespace inputs ")" and
"AND" also yield nothing, because the token stream starts with no term
(parseTerm returns nil and the nil propagates out of parse), so "returns
nothing EXACTLY for empty/whitespace-only input" does not hold. -/
theorem parseQuery_empty_behavior :
    (∀ s : List Nat, trimSpace s = [] → ParseQuery s = none) ∧
    ParseQuery (ab (")")) = none ∧
    ParseQuery (ab ("AND")) = none ∧
    ParseQuery (ab ("   ")) = none ∧
    ParseQuery (ab ("a")) = some (JFilter.text (ab ("text")) (ab ("a"))) := by
  refine ⟨?_, rfl, rfl, rfl, rfl⟩
  intro s h
  simp [ParseQuery, h]

/-- C1 counterexample: ")" is neither empty nor whitespace-only (its
TrimSpace is nonempty), yet ParseQuery returns no filter tree at all,
refuting "for every other input it returns a well-formed filter tree". -/
theorem parseQuery_rparen_no_tree :
    trimSpace (ab (")")) ≠ [] ∧ ParseQuery (ab (")")) = none := by
  exact ⟨by decide, rfl⟩

/-- C1 witness: the whitespace-only fact applied at the concrete input of a
space and a tab. -/
theorem parseQuery_empty_behavior_inst : ParseQuery [32, 9] = none :=
  parseQuery_empty_behavior.1 [32, 9] (by decide)
